import Mathlib

/-!
Verification of the music-synthesis repository (`mivi.py`, `lilysynth.py`).

Floating-point arithmetic of the Python source is modelled exactly:
times, sample values and tempo arithmetic as rationals (`ℚ`), and
frequencies — which involve `2 ** (x / 12)` — as real numbers (`ℝ`).
Machine integers of the byte stream are modelled as `ℕ`.

Namespaces: `Mivi` holds the binary MIDI-stream decoder, the tempo map
and the NoteOn/NoteOff pairing pass (`mivi.py`); `Lily` holds the
textual-notation parser, tie resolution, the additive-synthesis signal
and the mixer/PCM encoder (`lilysynth.py`).
-/

namespace Mivi

/-! ### Tempo map (`MidiParser._tick_to_seconds`, mivi.py lines 201–215)

A tempo map is a list of `(tick, microsecondsPerBeat)` breakpoints.
The walk keeps `(current_time, current_tick, current_micros_per_beat)`,
starting from tempo 500000 µs/beat, consumes breakpoints until the first
one with `map_tick > target_tick`, then adds the partial remainder. -/

/-- One walking step's time contribution, `tick_diff * (µs/beat / 1e6) / ticks_per_beat`. -/
def segContrib (tpb : ℚ) (fromTick : ℕ) (mpb : ℕ) (toTick : ℕ) : ℚ :=
  ((toTick : ℚ) - (fromTick : ℚ)) * ((mpb : ℚ) / 1000000) / tpb

/-- The loop of `_tick_to_seconds`: accumulator `time`, current tick and tempo. -/
def tickToSecondsGo (tpb : ℚ) (target : ℕ) :
    List (ℕ × ℕ) → ℚ → ℕ → ℕ → ℚ
  | [], time, ctick, mpb => time + segContrib tpb ctick mpb target
  | (mt, tempo) :: rest, time, ctick, mpb =>
    if target < mt then time + segContrib tpb ctick mpb target
    else tickToSecondsGo tpb target rest (time + segContrib tpb ctick mpb mt) mt tempo

/-- `MidiParser._tick_to_seconds`: convert an absolute tick to seconds under
the tempo map, starting at tick 0 with the default 500000 µs/beat. -/
def tick_to_seconds (tpb : ℚ) (tempoMap : List (ℕ × ℕ)) (target : ℕ) : ℚ :=
  tickToSecondsGo tpb target tempoMap 0 0 500000

/-- Specification formula for `secondsAt` (spec §4.1): take the breakpoints at
or below the target, prepend the implicit starting point `(0, 500000)`, sum the
contribution of every adjacent segment, and add the partial remainder from the
last applicable breakpoint to the target under that breakpoint's tempo. -/
def specSecondsAt (tpb : ℚ) (tempoMap : List (ℕ × ℕ)) (target : ℕ) : ℚ :=
  let pts := (0, 500000) :: tempoMap.takeWhile (fun p => p.1 ≤ target)
  (((pts.zip pts.tail).map (fun ab => segContrib tpb ab.1.1 ab.1.2 ab.2.1)).sum)
    + segContrib tpb (pts.getLastD (0, 500000)).1 (pts.getLastD (0, 500000)).2 target

/-! ### Binary stream decoder (`MidiParser._parse_track`, mivi.py lines 118–199)

The byte content of a track chunk is a `List ℕ` read by position; Python's
one-byte `ord(f.read(1))` at end of input raises (the parser aborts), which
is modelled by an `Option` result, while multi-byte `f.read(n)` silently
returns fewer bytes, modelled by capping the new position at the input
length.  A NoteOn with velocity 0 is emitted as a NoteOff at decode time. -/

/-- A decoded channel note event (the dicts appended in `_parse_track`;
a `note_off` dict carries no velocity). -/
inductive MEvent
  | noteOn (tick ch note vel : ℕ)
  | noteOff (tick ch note : ℕ)
deriving DecidableEq

/-- Decoder loop state: read position, absolute tick, running status,
decoded events, and tempo breakpoints collected from meta event 0x51. -/
structure TrackState where
  pos : ℕ
  tick : ℕ
  rs : ℕ
  events : List MEvent
  tempos : List (ℕ × ℕ)
deriving DecidableEq

/-- Helper for `_read_variable_length` over the remaining bytes: returns the
decoded value and the number of bytes consumed.  Each byte contributes its
7 low bits; the first byte with the high bit clear stops the loop; at end of
input the value so far is returned. -/
def readVLQaux : List ℕ → ℕ → ℕ × ℕ
  | [], acc => (acc, 0)
  | b :: rest, acc =>
    let acc2 := acc * 128 + b % 128
    if b < 128 then (acc2, 1)
    else
      let r := readVLQaux rest acc2
      (r.1, r.2 + 1)

/-- `_read_variable_length` at a position: decoded value and new position. -/
def read_variable_length (bs : List ℕ) (pos : ℕ) : ℕ × ℕ :=
  let r := readVLQaux (bs.drop pos) 0
  (r.1, pos + r.2)

/-- Data byte count of the system-common messages 0xF1–0xF3. -/
def sysCommonLen (status : ℕ) : ℕ :=
  if status = 241 then 1 else if status = 242 then 2 else 1

/-- `int.from_bytes(data, byteorder='big')`. -/
def beVal (data : List ℕ) : ℕ := data.foldl (fun a b => a * 256 + b) 0

/-- The body of one `_parse_track` loop iteration after running-status
resolution: `status` is the resolved status, `dataPos` the position of the
first data byte (the status position itself when running status was used and
the stream was rewound one byte), `rs1` the running status after resolution.
Returns `none` when a mandatory one-byte read hits the end of input,
otherwise the new state and whether end-of-track (meta 0x2F) was reached. -/
def trackIterBody (bs : List ℕ) (tick status dataPos rs1 : ℕ) (s : TrackState) :
    Option (TrackState × Bool) :=
  let p := if 241 ≤ status ∧ status ≤ 243
           then min (dataPos + sysCommonLen status) bs.length else dataPos
  let rs2 := if 241 ≤ status ∧ status ≤ 243 then 0 else rs1
  if 128 ≤ status ∧ status ≤ 239 then
    let ch := status &&& 15
    let cmd := status &&& 240
    if cmd = 128 then
      match bs.get? p, bs.get? (p + 1) with
      | some note, some _vel =>
        some ({ s with
                pos := p + 2, tick := tick, rs := rs2,
                events := s.events ++ [.noteOff tick ch note] }, false)
      | _, _ => none
    else if cmd = 144 then
      match bs.get? p, bs.get? (p + 1) with
      | some note, some vel =>
        if vel = 0 then
          some ({ s with
                  pos := p + 2, tick := tick, rs := rs2,
                  events := s.events ++ [.noteOff tick ch note] }, false)
        else
          some ({ s with
                  pos := p + 2, tick := tick, rs := rs2,
                  events := s.events ++ [.noteOn tick ch note vel] }, false)
      | _, _ => none
    else if cmd = 160 ∨ cmd = 176 ∨ cmd = 224 then
      some ({ s with pos := min (p + 2) bs.length, tick := tick, rs := rs2 }, false)
    else if cmd = 192 ∨ cmd = 208 then
      some ({ s with pos := min (p + 1) bs.length, tick := tick, rs := rs2 }, false)
    else
      some ({ s with pos := p, tick := tick, rs := rs2 }, false)
  else if status = 240 ∨ status = 247 then
    let v := read_variable_length bs p
    some ({ s with pos := min (v.2 + v.1) bs.length, tick := tick, rs := 0 }, false)
  else if status = 255 then
    match bs.get? p with
    | none => none
    | some typeCode =>
      let v := read_variable_length bs (p + 1)
      let data := (bs.drop v.2).take v.1
      let pos2 := min (v.2 + v.1) bs.length
      if typeCode = 81 then
        some ({ s with
                pos := pos2, tick := tick, rs := 0,
                tempos := s.tempos ++ [(tick, beVal data)] }, false)
      else if typeCode = 47 then
        some ({ s with pos := pos2, tick := tick, rs := 0 }, true)
      else
        some ({ s with pos := pos2, tick := tick, rs := 0 }, false)
  else
    some ({ s with pos := p, tick := tick, rs := rs2 }, false)

/-- One iteration of the `_parse_track` event loop: read the delta time,
read the byte at the status position, and resolve the running status:
a byte ≥ 0x80 becomes the current status (and the new running status);
a byte < 0x80 reuses the previous running status and the stream is rewound
one byte (`f.seek(-1, 1)`), so that byte is the first data byte. -/
def trackIter (bs : List ℕ) (s : TrackState) : Option (TrackState × Bool) :=
  let v := read_variable_length bs s.pos
  match bs.get? v.2 with
  | none => none
  | some b =>
    if 128 ≤ b then trackIterBody bs (s.tick + v.1) b (v.2 + 1) b s
    else trackIterBody bs (s.tick + v.1) s.rs v.2 s.rs s

/-- The `while f.tell() < track_end` loop of `_parse_track`, fuelled (each
non-aborting iteration consumes at least one byte, so fuel `trackEnd + 1`
is always enough). -/
def parseTrackGo (bs : List ℕ) (trackEnd : ℕ) : ℕ → TrackState → Option TrackState
  | 0, s => some s
  | fuel + 1, s =>
    if s.pos < trackEnd then
      match trackIter bs s with
      | none => none
      | some (s2, true) => some s2
      | some (s2, false) => parseTrackGo bs trackEnd fuel s2
    else some s

/-- Decode the event bytes of one track chunk into its channel note events
(`none` when decoding runs off the end of the input). -/
def parse_track (body : List ℕ) : Option (List MEvent) :=
  (parseTrackGo body body.length (body.length + 1) ⟨0, 0, 0, [], []⟩).map TrackState.events

/-! ### NoteOn/NoteOff pairing (`MidiParser.get_parsed_notes`, mivi.py 229–270)

Per track, a mapping from `(channel, pitch)` to the `(start_tick, velocity)`
of the most recent unmatched NoteOn is maintained; a NoteOff for a present
key closes the note and emits it with tick bounds converted to seconds.
The display color stored in the note dict is a pure function of the channel
and is omitted here. -/

/-- A paired note (`{'midi', 'start', 'dur', 'vel', 'ch'}`). -/
structure PNote where
  midi : ℕ
  start : ℚ
  dur : ℚ
  vel : ℕ
  ch : ℕ
deriving DecidableEq

/-- Pairing state: the `active_notes` dict and the emitted notes. -/
structure PairState where
  active : List ((ℕ × ℕ) × (ℕ × ℕ))
  notes : List PNote
deriving DecidableEq

/-- Dict insert-or-replace (`active_notes[key] = value`). -/
def dictSet (m : List ((ℕ × ℕ) × (ℕ × ℕ))) (k : ℕ × ℕ) (v : ℕ × ℕ) :
    List ((ℕ × ℕ) × (ℕ × ℕ)) :=
  (k, v) :: m.filter (fun kv => decide (kv.1 ≠ k))

/-- Dict lookup (`active_notes[key]`, `key in active_notes`). -/
def dictGet (m : List ((ℕ × ℕ) × (ℕ × ℕ))) (k : ℕ × ℕ) : Option (ℕ × ℕ) :=
  (m.find? (fun kv => decide (kv.1 = k))).map (fun kv => kv.2)

/-- Dict removal (`active_notes.pop(key)`). -/
def dictPop (m : List ((ℕ × ℕ) × (ℕ × ℕ))) (k : ℕ × ℕ) :
    List ((ℕ × ℕ) × (ℕ × ℕ)) :=
  m.filter (fun kv => decide (kv.1 ≠ k))

/-- One event of the pairing pass. -/
def pairStep (tpb : ℚ) (tempoMap : List (ℕ × ℕ)) (st : PairState) (e : MEvent) :
    PairState :=
  match e with
  | .noteOn tick ch note vel =>
    { st with active := dictSet st.active (ch, note) (tick, vel) }
  | .noteOff tick ch note =>
    match dictGet st.active (ch, note) with
    | some (startTick, vel) =>
      let startSec := tick_to_seconds tpb tempoMap startTick
      let endSec := tick_to_seconds tpb tempoMap tick
      { active := dictPop st.active (ch, note),
        notes := st.notes ++ [⟨note, startSec, endSec - startSec, vel, ch⟩] }
    | none => st

/-- The pairing pass over one track's decoded events. -/
def get_parsed_notes_track (tpb : ℚ) (tempoMap : List (ℕ × ℕ))
    (events : List MEvent) : List PNote :=
  (events.foldl (pairStep tpb tempoMap) ⟨[], []⟩).notes

end Mivi

namespace Lily

/-! ### Mixer and PCM encoder (`save_mixed_wav`, lilysynth.py lines 560–599)

Sample buffers are lists of rationals.  `save_mixed_wav` mixes the tracks
into a master buffer sized to the longest track, normalizes the peak to
`gain`, clips to `[-1, 1]` and quantizes to 16-bit integers.  The two
failure modes of the Python code are modelled as `MixError`:
`emptyInput` for the early return on an empty track list (the spec's
`EmptyInputError`), `emptyPeak` for the `ValueError` that `np.max`
raises on a zero-length mixed buffer. -/

inductive MixError
  | emptyInput
  | emptyPeak
deriving DecidableEq

/-- Result of the encoder: either a failure or the emitted 16-bit samples. -/
inductive MixOut
  | failure (e : MixError)
  | samples (out : List ℤ)
deriving DecidableEq

/-- `max(len(b) for b in audio_tracks)` (over an empty list: 0). -/
def maxLen (tracks : List (List ℚ)) : ℕ :=
  (tracks.map List.length).foldl max 0

/-- `mixed[:len(track)] += track`: add a track into the master buffer;
positions beyond the track's length are unchanged. -/
def addTrack (master track : List ℚ) : List ℚ :=
  master.enum.map (fun ix => ix.2 + track.getD ix.1 0)

/-- Mix all tracks into a zero master buffer of the longest track's length. -/
def mixTracks (tracks : List (List ℚ)) : List ℚ :=
  tracks.foldl addTrack (List.replicate (maxLen tracks) 0)

/-- `np.max(np.abs(mixed))` for a nonempty buffer. -/
def peak (l : List ℚ) : ℚ :=
  (l.map abs).foldl max 0

/-- `np.clip(x, -1.0, 1.0)`. -/
def clip1 (x : ℚ) : ℚ := max (-1) (min 1 x)

/-- `.astype(np.int16)` on a float in 16-bit range: C-style cast,
truncation toward zero. -/
def truncZ (q : ℚ) : ℤ := if 0 ≤ q then ⌊q⌋ else ⌈q⌉

/-- Peak normalization step of `save_mixed_wav`:
`if max_val > 0: mixed = (mixed / max_val) * gain`. -/
def normalize (buf : List ℚ) (gain : ℚ) : List ℚ :=
  if 0 < peak buf then buf.map (fun s => s / peak buf * gain) else buf

/-- `save_mixed_wav(audio_tracks, gain)`, returning the 16-bit samples that
are written to the container (or the failure mode). -/
def save_mixed_wav (tracks : List (List ℚ)) (gain : ℚ) : MixOut :=
  if tracks = [] then .failure .emptyInput
  else
    let mixed := mixTracks tracks
    if mixed = [] then .failure .emptyPeak
    else
      let mv := peak mixed
      let scaled := if 0 < mv then mixed.map (fun s => s / mv * gain) else mixed
      .samples (scaled.map (fun s => truncZ (clip1 s * 32767)))

/-- The encoder as claimed by the spec (§4.5): identical to
`save_mixed_wav` except that quantization is `round(sample * 32767)`. -/
def specSaveMixedWavRound (tracks : List (List ℚ)) (gain : ℚ) : MixOut :=
  if tracks = [] then .failure .emptyInput
  else
    let mixed := mixTracks tracks
    if mixed = [] then .failure .emptyPeak
    else
      let mv := peak mixed
      let scaled := if 0 < mv then mixed.map (fun s => s / mv * gain) else mixed
      .samples (scaled.map (fun s => round (clip1 s * 32767)))

/-! ### Textual notation parser (`Synth.parse`, lilysynth.py lines 181–379)

The tokenizer's regular expression produces four token shapes — barline,
chord opening `<`, chord closing `>` with optional digits, dots and tie,
and a note with base letter `a`–`g`, `r` or `s`, optional `is`/`es`
accidental, octave marks, optional digits, dots and tie.  A token is
modelled by the capture groups the parser itself re-extracts from it
(`re.match` in `parse`), so the structured `Token` type below carries
exactly the data the parse loop reads.  Octave marks are the counts of
`'` and `,` characters. -/

/-- Base pitch letters of the token grammar (`[a-grs]`). -/
inductive NoteName
  | c | d | e | f | g | a | b | r | s
deriving DecidableEq

/-- Accidental suffix: none, `is` (sharp, +1 semitone) or `es` (flat, −1). -/
inductive Acc
  | natural | sharp | flat
deriving DecidableEq

/-- One token of the notation, as decomposed by the parser's `re.match`. -/
inductive Token
  | bar
  | chordOpen
  | chordClose (durStr : Option ℕ) (dots : ℕ) (tie : Bool)
  | note (base : NoteName) (acc : Acc) (octUp octDown : ℕ)
      (durStr : Option ℕ) (dots : ℕ) (tie : Bool)
deriving DecidableEq

/-- Recognizer for note tokens. -/
def Token.isNoteTok : Token → Bool
  | .note _ _ _ _ _ _ _ => true
  | _ => false

/-- `note_offsets` semitone distances from C (lookup with default 0, so the
unmapped `s` falls back to 0; `r` returns early in `_get_freq`). -/
def noteOffset : NoteName → ℤ
  | .c => 0 | .d => 2 | .e => 4 | .f => 5 | .g => 7 | .a => 9 | .b => 11
  | .r => 0 | .s => 0

/-- `acc_val = 1 if acc == 'is' else (-1 if acc == 'es' else 0)`. -/
def accVal : Acc → ℤ
  | .natural => 0 | .sharp => 1 | .flat => -1

/-- Synth configuration used by the parser: beats per minute, global
transposition in semitones, and the reference A4 frequency. -/
structure Config where
  bpm : ℚ
  transpose : ℤ
  baseA4 : ℝ

/-- `Synth._get_freq`: 0 Hz for a rest, otherwise
`base_a4 * 2 ** ((midi_pitch - 69) / 12)` with
`midi_pitch = 48 + base_offset + accidentals + octave_shift * 12 + transpose`. -/
noncomputable def get_freq (cfg : Config) (base : NoteName) (octShift acc : ℤ) : ℝ :=
  if base = .r then 0
  else
    cfg.baseA4 * (2 : ℝ) ^
      ((((48 + noteOffset base + acc + octShift * 12 + cfg.transpose : ℤ) : ℝ) - 69) / 12)

/-- A parsed event `{'freq', 'start', 'dur', 'tied'}`. -/
structure NoteEvent where
  freq : ℝ
  start : ℚ
  dur : ℚ
  tied : Bool

/-- The dot loop: `factor = 1.0; add = 0.5; for each dot: factor += add;
add /= 2`. -/
def dotFactorGo : ℕ → ℚ → ℚ → ℚ
  | 0, factor, _ => factor
  | k + 1, factor, add => dotFactorGo k (factor + add) (add / 2)

/-- Duration multiplier of a dot suffix. -/
def dotFactor (dots : ℕ) : ℚ := dotFactorGo dots 1 (1/2)

/-- Parser state carried across tokens (the local variables of `parse`).
The advisory meter warning of the barline branch is a print statement and
produces no data; the bar accumulator and counter it reads are kept. -/
structure PState where
  current_time : ℚ
  last_duration_val : ℕ
  current_bar_duration : ℚ
  bar_counter : ℕ
  in_chord : Bool
  chord_start_time : ℚ
  chord_max_duration : ℚ
  chord_max_beat_len : ℚ
  chord_event_indices : List ℕ
  raw_events : List NoteEvent

/-- Initial parser state. -/
def initState : PState := ⟨0, 4, 0, 1, false, 0, 0, 0, [], []⟩

/-- In-place update of one list position (`raw_events[idx] = ...`). -/
def modifyAt {α : Type} : List α → ℕ → (α → α) → List α
  | [], _, _ => []
  | x :: xs, 0, f => f x :: xs
  | x :: xs, n + 1, f => x :: modifyAt xs n f

/-- `for idx in chord_event_indices: raw_events[idx]['dur'] = dur_sec`. -/
def setDurs (l : List NoteEvent) (idxs : List ℕ) (d : ℚ) : List NoteEvent :=
  idxs.foldl (fun acc i => modifyAt acc i (fun e => { e with dur := d })) l

/-- `for idx in chord_event_indices: raw_events[idx]['tied'] = True`. -/
def setTies (l : List NoteEvent) (idxs : List ℕ) : List NoteEvent :=
  idxs.foldl (fun acc i => modifyAt acc i (fun e => { e with tied := true })) l

/-- One token of the `parse` loop. -/
noncomputable def parseStep (cfg : Config) (s : PState) : Token → PState
  | .bar =>
    { s with current_bar_duration := 0, bar_counter := s.bar_counter + 1 }
  | .chordOpen =>
    { s with
      in_chord := true,
      chord_start_time := s.current_time,
      chord_max_duration := 0,
      chord_max_beat_len := 0,
      chord_event_indices := [] }
  | .chordClose durStr dots tie =>
    if durStr.isSome || decide (dots ≠ 0) then
      let lastVal := durStr.getD s.last_duration_val
      let dq := (4 / (lastVal : ℚ)) * dotFactor dots
      let durSec := dq * (60 / cfg.bpm)
      let raw1 := setDurs s.raw_events s.chord_event_indices durSec
      let raw2 := if tie then setTies raw1 s.chord_event_indices else raw1
      { s with
        in_chord := false,
        last_duration_val := lastVal,
        raw_events := raw2,
        current_time := s.chord_start_time + durSec,
        current_bar_duration := s.current_bar_duration + dq }
    else
      let raw2 := if tie then setTies s.raw_events s.chord_event_indices
                  else s.raw_events
      { s with
        in_chord := false,
        raw_events := raw2,
        current_time := s.chord_start_time + s.chord_max_duration,
        current_bar_duration := s.current_bar_duration + s.chord_max_beat_len }
  | .note base acc octUp octDown durStr dots tie =>
    let lastVal := durStr.getD s.last_duration_val
    let dq := (4 / (lastVal : ℚ)) * dotFactor dots
    let durSec := dq * (60 / cfg.bpm)
    let octShift : ℤ := (octUp : ℤ) - (octDown : ℤ)
    let ev : NoteEvent :=
      ⟨get_freq cfg base octShift (accVal acc),
       if s.in_chord then s.chord_start_time else s.current_time, durSec, tie⟩
    if s.in_chord then
      { s with
        last_duration_val := lastVal,
        raw_events := s.raw_events ++ [ev],
        chord_event_indices := s.chord_event_indices ++ [s.raw_events.length],
        chord_max_duration := max s.chord_max_duration durSec,
        chord_max_beat_len := max s.chord_max_beat_len dq }
    else
      { s with
        last_duration_val := lastVal,
        raw_events := s.raw_events ++ [ev],
        current_time := s.current_time + durSec,
        current_bar_duration := s.current_bar_duration + dq }

/-- The token loop of `parse`. -/
noncomputable def parseTokens (cfg : Config) (tokens : List Token) : PState :=
  tokens.foldl (parseStep cfg) initState

/-! ### Tie resolution (`Synth._process_ties`, lilysynth.py lines 387–427)

Python's `events.sort(key=lambda x: x['start'])` is a stable ascending
sort; a stable sort is uniquely determined by the comparator and the input
order, so it is modelled by insertion sort with weak inequality, which is
stable. -/

/-- Stable ascending sort by start time. -/
def sortByStart (l : List NoteEvent) : List NoteEvent :=
  List.insertionSort (fun a b => a.start ≤ b.start) l

/-- The candidate condition of the inner search: not yet consumed, onset
within 1 ms of the expected start, equal frequency. -/
noncomputable def tiePred (skip : Finset ℕ) (curr : NoteEvent) : ℕ × NoteEvent → Bool :=
  fun je => decide (je.1 ∉ skip) &&
    (decide (|je.2.start - (curr.start + curr.dur)| < 1/1000) &&
      decide (je.2.freq = curr.freq))

/-- `for j in range(i + 1, len(events))` with the skip set: the first
continuation candidate for the current note, as `(index, event)`. -/
noncomputable def tieCand (events : List NoteEvent) (i : ℕ) (skip : Finset ℕ)
    (curr : NoteEvent) : Option (ℕ × NoteEvent) :=
  (events.enum.drop (i + 1)).find? (tiePred skip curr)

/-- A found continuation candidate is a fresh in-range index. -/
theorem tieCand_facts (events : List NoteEvent) (i : ℕ) (skip : Finset ℕ)
    (curr : NoteEvent) (j : ℕ) (cand : NoteEvent)
    (h : tieCand events i skip curr = some (j, cand)) :
    j < events.length ∧ j ∉ skip := by
  have hp := List.find?_some h
  have hmem : (j, cand) ∈ events.enumFrom 0 :=
    List.mem_of_mem_drop (List.mem_of_find?_eq_some h)
  have hj : j < events.length := by
    have := (List.mem_enumFrom hmem).2.1
    omega
  refine ⟨hj, ?_⟩
  simp only [tiePred, Bool.and_eq_true, decide_eq_true_eq] at hp
  exact hp.1

/-- The `while curr['tied']` loop: keep merging the first continuation
candidate into the current note (durations added, tie flag taken over,
candidate index added to the skip set) until none is found. -/
noncomputable def tieLoop (events : List NoteEvent) (i : ℕ) (curr : NoteEvent)
    (skip : Finset ℕ) : NoteEvent × Finset ℕ :=
  if curr.tied then
    match h : tieCand events i skip curr with
    | some (j, cand) =>
      tieLoop events i { curr with dur := curr.dur + cand.dur, tied := cand.tied }
        (insert j skip)
    | none => (curr, skip)
  else (curr, skip)
termination_by (Finset.range events.length \ skip).card
decreasing_by
  have hf := tieCand_facts events i skip curr j cand h
  rw [Finset.sdiff_insert]
  exact Finset.card_erase_lt_of_mem (Finset.mem_sdiff.2 ⟨Finset.mem_range.2 hf.1, hf.2⟩)

/-- The outer `for i, curr in enumerate(events)` loop of `_process_ties`:
skip consumed indices, drop rests, run the tie loop, emit the result. -/
noncomputable def mergeLoop (events : List NoteEvent) (i : ℕ) (skip : Finset ℕ) :
    List NoteEvent :=
  if h : i < events.length then
    if i ∈ skip then mergeLoop events (i + 1) skip
    else
      let curr := events.get ⟨i, h⟩
      if curr.freq = 0 then mergeLoop events (i + 1) skip
      else
        let r := tieLoop events i curr skip
        r.1 :: mergeLoop events (i + 1) r.2
  else []
termination_by events.length - i
decreasing_by all_goals omega

/-- `Synth._process_ties`. -/
noncomputable def process_ties (events : List NoteEvent) : List NoteEvent :=
  match events with
  | [] => []
  | _ => mergeLoop (sortByStart events) 0 ∅

/-- `Synth.parse`: run the token loop, then resolve ties. -/
noncomputable def parse (cfg : Config) (tokens : List Token) : List NoteEvent :=
  process_ties (parseTokens cfg tokens).raw_events

/-! ### Tie resolution as worded by the spec (§4.3)

The spec describes the search over the notes themselves: each tied note
merges with the first later note, not yet consumed, of equal frequency
whose onset is within 1 ms of the tied note's end; the merged-in note is
removed from the list.  The functions below transcribe that wording over a
plain list from which consumed notes are removed. -/

/-- First later unconsumed continuation: the matching note and the list
with that note removed. -/
noncomputable def specFindCont (e : NoteEvent) :
    List NoteEvent → Option (NoteEvent × List NoteEvent)
  | [] => none
  | c :: rest =>
    if |c.start - (e.start + e.dur)| < 1/1000 ∧ c.freq = e.freq then some (c, rest)
    else
      match specFindCont e rest with
      | some (cand, rest2) => some (cand, c :: rest2)
      | none => none

/-- A successful search removes exactly one note. -/
theorem specFindCont_length (e : NoteEvent) :
    ∀ (l : List NoteEvent) (c : NoteEvent) (rest : List NoteEvent),
      specFindCont e l = some (c, rest) → rest.length + 1 = l.length := by
  intro l
  induction l with
  | nil => intro c rest h; simp [specFindCont] at h
  | cons x xs ih =>
    intro c rest h
    rw [specFindCont] at h
    split at h
    · cases h; simp
    · cases hr : specFindCont e xs with
      | none => rw [hr] at h; cases h
      | some p =>
        rw [hr] at h
        cases h
        have := ih p.1 p.2 (by rw [hr])
        simp
        omega

/-- Merge a tied note with its chain of continuations, as the spec words
it: durations added, the successor's tie flag taken over, the merged-in
note removed, repeating while the note stays tied. -/
noncomputable def specMergeTied (curr : NoteEvent) (later : List NoteEvent) :
    NoteEvent × List NoteEvent :=
  if curr.tied then
    match h : specFindCont curr later with
    | some (c, rest) =>
      specMergeTied { curr with dur := curr.dur + c.dur, tied := c.tied } rest
    | none => (curr, later)
  else (curr, later)
termination_by later.length
decreasing_by
  have := specFindCont_length curr later c rest h
  omega

/-- Tie merging never lengthens the list of later notes. -/
theorem specMergeTied_length (curr : NoteEvent) (later : List NoteEvent) :
    (specMergeTied curr later).2.length ≤ later.length := by
  suffices H : ∀ (n : ℕ) (c : NoteEvent) (l : List NoteEvent), l.length ≤ n →
      (specMergeTied c l).2.length ≤ l.length from H later.length curr later le_rfl
  intro n
  induction n with
  | zero =>
    intro c l hl
    rw [specMergeTied]
    split
    · split
      · rename_i c2 rest h
        have := specFindCont_length c l c2 rest h
        omega
      · simp
    · simp
  | succ n ih =>
    intro c l hl
    rw [specMergeTied]
    split
    · split
      · rename_i c2 rest h
        have h1 := specFindCont_length c l c2 rest h
        have h2 := ih { c with dur := c.dur + c2.dur, tied := c2.tied } rest (by omega)
        omega
      · simp
    · simp

/-- The spec's outer pass: rests are dropped, every other note is merged
with its continuations and emitted; consumed notes are gone from the list. -/
noncomputable def specResolve : List NoteEvent → List NoteEvent
  | [] => []
  | curr :: rest =>
    if curr.freq = 0 then specResolve rest
    else (specMergeTied curr rest).1 :: specResolve (specMergeTied curr rest).2
termination_by l => l.length
decreasing_by
  all_goals simp only [List.length_cons]
  · exact Nat.lt_succ_self _
  · exact Nat.lt_succ_of_le (specMergeTied_length _ _)

/-- Tie resolution as the spec words it: time-sort, then resolve. -/
noncomputable def spec_process_ties (events : List NoteEvent) : List NoteEvent :=
  specResolve (sortByStart events)

/-- The notes of an indexed list whose indices are not in the skip set, in
order: the list the spec's wording operates on, at a given state of the
index-based loop. -/
def unskipped (skip : Finset ℕ) (l : List (ℕ × NoteEvent)) : List NoteEvent :=
  l.filterMap (fun je => if je.1 ∈ skip then none else some je.2)

/-! ### Additive synthesis signal (`Synth._generate_wave`, lilysynth.py
140–153; the same summation appears in `MidiSynth._generate_wave`,
mivi.py 300–309)

Per sample at time `t`, the loop over `enumerate(overtones)` adds
`intensity * sin(2π * freq * (i+1) * t)` whenever the harmonic frequency
`freq * (i+1)` is strictly below half the sample rate, and the sum is then
divided by `np.sum(overtones)`. -/

/-- The harmonic summation loop at one time point. -/
noncomputable def overtoneSum (overtones : List ℝ) (freq sr t : ℝ) : ℝ :=
  overtones.enum.foldl
    (fun acc ia =>
      if freq * ((ia.1 : ℝ) + 1) < sr / 2
      then acc + ia.2 * Real.sin (2 * Real.pi * (freq * ((ia.1 : ℝ) + 1)) * t)
      else acc) 0

/-- One sample of the normalized signal of `_generate_wave` (before the
envelope): the harmonic sum divided by the sum of all configured
overtone amplitudes. -/
noncomputable def generate_wave_sample (overtones : List ℝ) (freq sr t : ℝ) : ℝ :=
  overtoneSum overtones freq sr t / overtones.sum

end Lily

namespace Mivi

/-! ## Theorems -/

/-- Walking the tempo map from an arbitrary intermediate state equals the
accumulated time plus the closed-form segment sum from that state. -/
theorem tickToSecondsGo_eq_segSum (tpb : ℚ) (target : ℕ) :
    ∀ (tm : List (ℕ × ℕ)) (time : ℚ) (ctick mpb : ℕ),
      tickToSecondsGo tpb target tm time ctick mpb =
        time +
          ((((ctick, mpb) :: tm.takeWhile (fun p => p.1 ≤ target)).zip
              ((ctick, mpb) :: tm.takeWhile (fun p => p.1 ≤ target)).tail).map
            (fun ab => segContrib tpb ab.1.1 ab.1.2 ab.2.1)).sum +
          segContrib tpb
            (((ctick, mpb) :: tm.takeWhile (fun p => p.1 ≤ target)).getLastD (0, 500000)).1
            (((ctick, mpb) :: tm.takeWhile (fun p => p.1 ≤ target)).getLastD (0, 500000)).2
            target := by
  intro tm
  induction tm with
  | nil => intro time ctick mpb; simp [tickToSecondsGo]
  | cons hd tl ih =>
    intro time ctick mpb
    obtain ⟨mt, tempo⟩ := hd
    by_cases h : target < mt
    · have hnot : ¬ (mt ≤ target) := by omega
      simp [tickToSecondsGo, h, List.takeWhile, hnot]
    · have hle : mt ≤ target := by omega
      simp only [tickToSecondsGo, if_neg h, List.takeWhile, decide_eq_true_eq, hle, if_pos]
      rw [ih]
      cases htl : tl.takeWhile (fun p => p.1 ≤ target) with
      | nil => simp [segContrib]
      | cons x xs => simp [List.getLastD_cons]; ring

/-- C1: for every tempo map sorted ascending by tick and every target tick,
`_tick_to_seconds` returns the sum, over every breakpoint segment below the
target, of `segmentTickSpan * (segmentMicrosecondsPerBeat / 1e6) / ticksPerBeat`,
plus the partial remainder from the last applicable breakpoint to the target
under that breakpoint's tempo; with `ticksPerBeat = 480` and the single
breakpoint `(0, 500000)`, `secondsAt 480 = 0.5` within tolerance `1e-9`. -/
theorem c1_tick_to_seconds_segment_sum :
    (∀ (tpb : ℚ) (tm : List (ℕ × ℕ)) (t : ℕ),
        tm.Pairwise (fun a b => a.1 ≤ b.1) →
        tick_to_seconds tpb tm t = specSecondsAt tpb tm t) ∧
    tick_to_seconds 480 [(0, 500000)] 480 = 1/2 ∧
    |tick_to_seconds 480 [(0, 500000)] 480 - 1/2| < 1/1000000000 := by
  refine ⟨?_, ?_, ?_⟩
  · intro tpb tm t _hsorted
    unfold tick_to_seconds specSecondsAt
    rw [tickToSecondsGo_eq_segSum]
    ring
  · norm_num [tick_to_seconds, tickToSecondsGo, segContrib]
  · norm_num [tick_to_seconds, tickToSecondsGo, segContrib]

/-- Witness for C1 at the concrete sorted map `[(0, 500000)]`. -/
theorem c1_tick_to_seconds_segment_sum_witness :
    ([((0:ℕ), (500000:ℕ))].Pairwise (fun a b => a.1 ≤ b.1)) ∧
    tick_to_seconds 480 [(0, 500000)] 480 = specSecondsAt 480 [(0, 500000)] 480 :=
  ⟨by simp, c1_tick_to_seconds_segment_sum.1 480 [(0, 500000)] 480 (by simp)⟩

/-- C4 counterexample: fed to the track decoder as a literal track byte
stream, `[0x90,60,100, 61,100, 0x80,60,0]` does not decode to two NoteOn
events and one NoteOff event.  In the track chunk format every event is
preceded by a variable-length delta time, so the decoder consumes the
leading `0x90 0x3C` as a delta-time quantity (2108 ticks), the bytes
`100`, `61`, `100` as data bytes under the stale running status 0, and only
`0x80 60 0` as an event: the decode yields a single NoteOff and no NoteOn. -/
theorem c4_running_status_counterexample :
    parse_track [144, 60, 100, 61, 100, 128, 60, 0] =
      some [.noteOff 2369 0 60] ∧
    ((parse_track [144, 60, 100, 61, 100, 128, 60, 0]).getD []).countP
      (fun e => match e with | .noteOn _ _ _ _ => true | _ => false) = 0 := by
  constructor <;> decide

/-- C4, amended: at an event's status position, a byte ≥ 0x80 becomes the
current status (and is recorded as the running status), while a byte < 0x80
is treated as the first data byte of a repeated event under the previously
set running status (the decoder rewinds one byte before reading data); the
stream `[0x90,60,100, 61,100, 0x80,60,0]` with each event preceded by its
(zero) delta-time byte decodes to exactly two NoteOn events and one NoteOff
event, the second NoteOn inferring status 0x90. -/
theorem c4_running_status :
    (∀ (bs : List ℕ) (s : TrackState) (b : ℕ),
        bs.get? (read_variable_length bs s.pos).2 = some b →
        (128 ≤ b →
          trackIter bs s =
            trackIterBody bs (s.tick + (read_variable_length bs s.pos).1) b
              ((read_variable_length bs s.pos).2 + 1) b s) ∧
        (b < 128 →
          trackIter bs s =
            trackIterBody bs (s.tick + (read_variable_length bs s.pos).1) s.rs
              ((read_variable_length bs s.pos).2) s.rs s)) ∧
    parse_track [0, 144, 60, 100, 0, 61, 100, 0, 128, 60, 0] =
      some [.noteOn 0 0 60 100, .noteOn 0 0 61 100, .noteOff 0 0 60] := by
  constructor
  · intro bs s b hb
    constructor
    · intro h128
      simp only [trackIter, hb, if_pos h128]
    · intro hlt
      simp only [trackIter, hb, if_neg (Nat.not_le.2 hlt)]
  · decide

/-- Witness for C4 (amended) at the concrete stream `[0, 0x90, 60, 100]`. -/
theorem c4_running_status_witness :
    ([0, 144, 60, 100].get? (read_variable_length [0, 144, 60, 100] 0).2 = some 144) ∧
    ((128 : ℕ) ≤ 144) ∧
    trackIter [0, 144, 60, 100] ⟨0, 0, 0, [], []⟩ =
      trackIterBody [0, 144, 60, 100]
        (0 + (read_variable_length [0, 144, 60, 100] 0).1) 144
        ((read_variable_length [0, 144, 60, 100] 0).2 + 1) 144 ⟨0, 0, 0, [], []⟩ :=
  ⟨by decide, by decide,
    (c4_running_status.1 [0, 144, 60, 100] ⟨0, 0, 0, [], []⟩ 144 (by decide)).1
      (by decide)⟩

/-- C8: a channel voice event with status high nibble 0x9 (NoteOn) whose
velocity data byte is 0 is emitted at decode time as a NoteOff event with
the same channel and pitch, never as a NoteOn; concretely the track stream
`[0, 0x90, 60, 0]` decodes to a single NoteOff. -/
theorem c8_noteon_velocity_zero_is_noteoff :
    (∀ (bs : List ℕ) (tick ch note p rs1 : ℕ) (s : TrackState),
        ch < 16 → bs.get? p = some note → bs.get? (p + 1) = some 0 →
        trackIterBody bs tick (144 + ch) p rs1 s =
          some ({ s with
                  pos := p + 2, tick := tick, rs := rs1,
                  events := s.events ++ [.noteOff tick ch note] }, false)) ∧
    parse_track [0, 144, 60, 0] = some [.noteOff 0 0 60] := by
  constructor
  · intro bs tick ch note p rs1 s hch h1 h2
    have hnotsys : ¬(241 ≤ 144 + ch ∧ 144 + ch ≤ 243) := by omega
    have hrange : 128 ≤ 144 + ch ∧ 144 + ch ≤ 239 := by constructor <;> omega
    have hcmd : (144 + ch) &&& 240 = 144 := by interval_cases ch <;> rfl
    have hch15 : (144 + ch) &&& 15 = ch := by interval_cases ch <;> rfl
    simp only [trackIterBody, if_neg hnotsys, if_pos hrange, hcmd, hch15, h1, h2]
    norm_num
  · decide

/-- Witness for C8 at a concrete two-byte data stream. -/
theorem c8_noteon_velocity_zero_is_noteoff_witness :
    ((0 : ℕ) < 16) ∧ ([60, 0].get? 0 = some 60) ∧ ([60, 0].get? (0 + 1) = some 0) ∧
    trackIterBody [60, 0] 5 (144 + 0) 0 7 ⟨0, 0, 0, [], []⟩ =
      some ({ pos := 0 + 2, tick := 5, rs := 7,
              events := [] ++ [.noteOff 5 0 60], tempos := [] }, false) :=
  ⟨by decide, by decide, by decide,
    c8_noteon_velocity_zero_is_noteoff.1 [60, 0] 5 0 60 0 7 ⟨0, 0, 0, [], []⟩
      (by decide) (by decide) (by decide)⟩

/-- C9: the pairing pass emits a note only when a NoteOff closes a
previously unmatched NoteOn on the same `(channel, pitch)` key:
(a) a NoteOn emits nothing, so one still unmatched at end-of-track
produces no note and no error; (b) a NoteOff whose key has no unmatched
NoteOn emits nothing and leaves the state unchanged; (c) a new NoteOn on
an already unmatched key replaces that key's stored onset and velocity, so
a closing NoteOff emits a single note carrying the second NoteOn's onset
and velocity and the first NoteOn is never emitted. -/
theorem c9_pairing_unmatched_policy :
    (∀ (tpb : ℚ) (tm : List (ℕ × ℕ)) (evs : List MEvent) (t ch n v : ℕ),
        get_parsed_notes_track tpb tm (evs ++ [.noteOn t ch n v]) =
          get_parsed_notes_track tpb tm evs) ∧
    (∀ (tpb : ℚ) (tm : List (ℕ × ℕ)) (st : PairState) (t ch n : ℕ),
        dictGet st.active (ch, n) = none →
        pairStep tpb tm st (.noteOff t ch n) = st) ∧
    (∀ (tpb : ℚ) (tm : List (ℕ × ℕ)) (st : PairState) (t1 v1 t2 v2 t3 ch n : ℕ),
        ([MEvent.noteOn t1 ch n v1, .noteOn t2 ch n v2, .noteOff t3 ch n].foldl
            (pairStep tpb tm) st).notes =
          st.notes ++ [⟨n, tick_to_seconds tpb tm t2,
            tick_to_seconds tpb tm t3 - tick_to_seconds tpb tm t2, v2, ch⟩]) := by
  refine ⟨?_, ?_, ?_⟩
  · intro tpb tm evs t ch n v
    simp [get_parsed_notes_track, List.foldl_append, pairStep]
  · intro tpb tm st t ch n h
    simp [pairStep, h]
  · intro tpb tm st t1 v1 t2 v2 t3 ch n
    simp [pairStep, dictSet, dictGet, List.find?]

/-- Witness for C9 (its clause about a NoteOff with no unmatched NoteOn)
at the empty pairing state. -/
theorem c9_pairing_unmatched_policy_witness :
    dictGet (PairState.mk [] []).active (0, 60) = none ∧
    pairStep 480 [] (PairState.mk [] []) (.noteOff 5 0 60) = PairState.mk [] [] :=
  ⟨by decide, c9_pairing_unmatched_policy.2.1 480 [] (PairState.mk [] []) 5 0 60 (by decide)⟩

end Mivi

namespace Lily

/-- An initial accumulator is below its `foldl max`. -/
theorem le_foldl_max : ∀ (l : List ℚ) (a : ℚ), a ≤ l.foldl max a := by
  intro l
  induction l with
  | nil => intro a; simp
  | cons x xs ih => intro a; exact le_trans (le_max_left a x) (ih (max a x))

/-- Every member of a list is below its `foldl max`. -/
theorem mem_le_foldl_max : ∀ (l : List ℚ) (a x : ℚ), x ∈ l → x ≤ l.foldl max a := by
  intro l
  induction l with
  | nil => intro a x hx; simp at hx
  | cons y ys ih =>
    intro a x hx
    rcases List.mem_cons.1 hx with h | h
    · subst h; exact le_trans (le_max_right a x) (le_foldl_max ys (max a x))
    · exact ih (max a y) x h

/-- If the peak of a buffer is 0 then every sample is 0. -/
theorem eq_zero_of_peak_eq_zero (l : List ℚ) (hpk : peak l = 0) :
    ∀ x ∈ l, x = 0 := by
  intro x hx
  have h1 : |x| ≤ peak l := mem_le_foldl_max (l.map abs) 0 |x| (List.mem_map_of_mem abs hx)
  rw [hpk] at h1
  exact abs_eq_zero.1 (le_antisymm h1 (abs_nonneg x))

/-- C3 counterexample: on the single one-sample track `[1]` with gain `0.8`
the encoder emits `trunc(0.8 * 32767) = 26213`, while the claimed mapping
`round(sample * 32767)` gives `26214`, so the claim fails at this input. -/
theorem c3_counterexample_trunc_vs_round :
    save_mixed_wav [[1]] (4/5) = .samples [26213] ∧
    specSaveMixedWavRound [[1]] (4/5) = .samples [26214] ∧
    save_mixed_wav [[1]] (4/5) ≠ specSaveMixedWavRound [[1]] (4/5) := by
  refine ⟨?_, ?_, ?_⟩ <;>
    norm_num [save_mixed_wav, specSaveMixedWavRound, mixTracks, maxLen, addTrack,
      peak, clip1, truncZ, round_eq, List.enum, List.enumFrom]

/-- C3, amended: for every nonempty sequence of buffers whose mix is nonempty
and every gain, the encoder maps each mixed sample `s`, after peak
normalization to the gain and clipping to `[-1, 1]`, to the signed 16-bit
integer obtained by truncating `s * 32767` toward zero (C-style cast),
not by rounding. -/
theorem c3_quantize_is_trunc (tracks : List (List ℚ)) (gain : ℚ)
    (h1 : tracks ≠ []) (h2 : mixTracks tracks ≠ []) :
    save_mixed_wav tracks gain =
      .samples ((normalize (mixTracks tracks) gain).map
        (fun s => truncZ (clip1 s * 32767))) := by
  simp only [save_mixed_wav, normalize, if_neg h1, if_neg h2]

/-- Witness for C3 (amended) at the concrete input `[[1]]`, gain `0.8`. -/
theorem c3_quantize_is_trunc_witness :
    ([[(1:ℚ)]] ≠ ([] : List (List ℚ))) ∧ mixTracks [[1]] ≠ [] ∧
    save_mixed_wav [[1]] (4/5) =
      .samples ((normalize (mixTracks [[1]]) (4/5)).map
        (fun s => truncZ (clip1 s * 32767))) :=
  ⟨by simp, by norm_num [mixTracks, maxLen, addTrack, List.enum, List.enumFrom],
    c3_quantize_is_trunc [[1]] (4/5) (by simp)
      (by norm_num [mixTracks, maxLen, addTrack, List.enum, List.enumFrom])⟩

/-- C7: the encoder fails with the empty-input error when called with zero
buffers, and for every nonempty input whose (nonempty) mix has peak
amplitude 0 it emits that silence unscaled: one zero sample per mixed
position, independent of the gain. -/
theorem c7_empty_input_and_silence :
    (∀ gain : ℚ, save_mixed_wav [] gain = .failure .emptyInput) ∧
    (∀ (tracks : List (List ℚ)) (gain : ℚ), tracks ≠ [] → mixTracks tracks ≠ [] →
      peak (mixTracks tracks) = 0 →
      save_mixed_wav tracks gain = .samples (List.replicate (mixTracks tracks).length 0)) := by
  constructor
  · intro gain; rfl
  · intro tracks gain h1 h2 hpk
    have hrep : mixTracks tracks = List.replicate (mixTracks tracks).length 0 :=
      List.eq_replicate_iff.2 ⟨rfl, eq_zero_of_peak_eq_zero _ hpk⟩
    simp only [save_mixed_wav, if_neg h1, if_neg h2, hpk]
    norm_num
    conv_lhs => rw [hrep]
    simp [clip1, truncZ]

/-- Witness for C7 at the concrete input `[[0]]`, gain `1`. -/
theorem c7_empty_input_and_silence_witness :
    ([[(0:ℚ)]] ≠ ([] : List (List ℚ))) ∧ mixTracks [[0]] ≠ [] ∧
    peak (mixTracks [[0]]) = 0 ∧
    save_mixed_wav [[0]] 1 = .samples (List.replicate (mixTracks [[0]]).length 0) :=
  ⟨by simp, by norm_num [mixTracks, maxLen, addTrack, List.enum, List.enumFrom],
    by norm_num [mixTracks, maxLen, addTrack, peak, List.enum, List.enumFrom],
    c7_empty_input_and_silence.2 [[0]] 1 (by simp)
      (by norm_num [mixTracks, maxLen, addTrack, List.enum, List.enumFrom])
      (by norm_num [mixTracks, maxLen, addTrack, peak, List.enum, List.enumFrom])⟩

end Lily

namespace Lily

/-! ## Correspondence of the index-based tie loop with the spec's wording -/

theorem unskipped_nil (skip : Finset ℕ) : unskipped skip [] = [] := rfl

theorem unskipped_cons_mem {j : ℕ} {skip : Finset ℕ} (e : NoteEvent)
    (tl : List (ℕ × NoteEvent)) (h : j ∈ skip) :
    unskipped skip ((j, e) :: tl) = unskipped skip tl := by
  simp [unskipped, h]

theorem unskipped_cons_not_mem {j : ℕ} {skip : Finset ℕ} (e : NoteEvent)
    (tl : List (ℕ × NoteEvent)) (h : j ∉ skip) :
    unskipped skip ((j, e) :: tl) = e :: unskipped skip tl := by
  simp [unskipped, h]

/-- Adding an index that occurs nowhere in the list to the skip set does not
change the unskipped notes. -/
theorem unskipped_insert_of_forall_ne {j : ℕ} {skip : Finset ℕ} :
    ∀ (l : List (ℕ × NoteEvent)), (∀ je ∈ l, je.1 ≠ j) →
      unskipped (insert j skip) l = unskipped skip l := by
  intro l
  induction l with
  | nil => intro _; rfl
  | cons hd tl ih =>
    intro hne
    obtain ⟨j0, e0⟩ := hd
    have hj0 : j0 ≠ j := hne (j0, e0) (List.mem_cons_self _ _)
    have htl := ih (fun je hje => hne je (List.mem_cons_of_mem _ hje))
    by_cases hmem : j0 ∈ skip
    · rw [unskipped_cons_mem e0 tl hmem,
        unskipped_cons_mem e0 tl (Finset.mem_insert_of_mem hmem), htl]
    · have : j0 ∉ insert j skip := by
        simp [Finset.mem_insert, hj0, hmem]
      rw [unskipped_cons_not_mem e0 tl hmem, unskipped_cons_not_mem e0 tl this, htl]

/-- With an empty skip set the unskipped notes of an enumeration are the
notes themselves. -/
theorem unskipped_empty_enumFrom : ∀ (l : List NoteEvent) (n : ℕ),
    unskipped ∅ (l.enumFrom n) = l := by
  intro l
  induction l with
  | nil => intro n; rfl
  | cons x xs ih =>
    intro n
    show unskipped ∅ ((n, x) :: xs.enumFrom (n + 1)) = x :: xs
    rw [unskipped_cons_not_mem x _ (Finset.not_mem_empty n), ih (n + 1)]

/-- Enumerated indices are strictly increasing. -/
theorem enumFrom_pairwise_lt : ∀ (l : List NoteEvent) (n : ℕ),
    (l.enumFrom n).Pairwise (fun a b => a.1 < b.1) := by
  intro l
  induction l with
  | nil => intro n; exact List.Pairwise.nil
  | cons x xs ih =>
    intro n
    refine List.Pairwise.cons ?_ (ih (n + 1))
    intro b hb
    obtain ⟨bi, be⟩ := b
    have := (List.mem_enumFrom hb).1
    simpa using by omega

/-- Enumerated indices after a drop are pairwise distinct. -/
theorem enum_drop_pairwise_ne (events : List NoteEvent) (k : ℕ) :
    (events.enum.drop k).Pairwise (fun a b => a.1 ≠ b.1) := by
  have h1 : (events.enum.drop k).Pairwise (fun a b => a.1 < b.1) :=
    List.Pairwise.sublist (List.drop_sublist k _) (enumFrom_pairwise_lt events 0)
  exact h1.imp (fun h => Nat.ne_of_lt h)

/-- Dropping from an enumeration enumerates the dropped list. -/
theorem enumFrom_drop : ∀ (l : List NoteEvent) (n k : ℕ),
    (l.enumFrom n).drop k = (l.drop k).enumFrom (n + k) := by
  intro l
  induction l with
  | nil => intro n k; simp [List.enumFrom]
  | cons x xs ih =>
    intro n k
    cases k with
    | zero => simp
    | succ k =>
      show (xs.enumFrom (n + 1)).drop k = (xs.drop k).enumFrom (n + (k + 1))
      rw [ih (n + 1) k]
      congr 1
      omega

/-- Head decomposition of a dropped enumeration at an in-range index. -/
theorem enum_drop_decomp (events : List NoteEvent) (i : ℕ) (h : i < events.length) :
    events.enum.drop i = (i, events.get ⟨i, h⟩) :: events.enum.drop (i + 1) := by
  show (events.enumFrom 0).drop i = _ :: (events.enumFrom 0).drop (i + 1)
  rw [enumFrom_drop, enumFrom_drop, List.drop_eq_getElem_cons h]
  simp [List.enumFrom, List.get_eq_getElem]

/-- A dropped enumeration is empty past the end. -/
theorem enum_drop_past_end (events : List NoteEvent) (i : ℕ)
    (h : ¬ i < events.length) : events.enum.drop i = [] := by
  apply List.drop_eq_nil_of_le
  simpa using by omega

/-- The index-based candidate search of `_process_ties` agrees with the
spec's removal-based search on the unskipped notes: no candidate means no
continuation, and the first candidate `(j, cand)` means the continuation is
`cand` with the remaining notes being those outside `insert j skip`. -/
theorem findCont_spec (curr : NoteEvent) :
    ∀ (l : List (ℕ × NoteEvent)) (skip : Finset ℕ),
      l.Pairwise (fun a b => a.1 ≠ b.1) →
      ((l.find? (tiePred skip curr) = none →
          specFindCont curr (unskipped skip l) = none) ∧
       (∀ (j : ℕ) (cand : NoteEvent), l.find? (tiePred skip curr) = some (j, cand) →
          specFindCont curr (unskipped skip l) =
            some (cand, unskipped (insert j skip) l))) := by
  intro l
  induction l with
  | nil =>
    intro skip _
    exact ⟨fun _ => rfl, fun j cand h => by simp at h⟩
  | cons hd tl ih =>
    intro skip hpw
    obtain ⟨j0, e0⟩ := hd
    have hpw2 := List.pairwise_cons.1 hpw
    have hpw_tl := hpw2.2
    have hne : ∀ je ∈ tl, j0 ≠ je.1 := fun je hje => hpw2.1 je hje
    by_cases hskip : j0 ∈ skip
    · have hpred : ¬ tiePred skip curr (j0, e0) = true := by
        simp [tiePred, hskip]
      have hfind : ((j0, e0) :: tl).find? (tiePred skip curr) =
          tl.find? (tiePred skip curr) := List.find?_cons_of_neg _ hpred
      constructor
      · intro h
        rw [hfind] at h
        rw [unskipped_cons_mem e0 tl hskip]
        exact (ih skip hpw_tl).1 h
      · intro j cand h
        rw [hfind] at h
        rw [unskipped_cons_mem e0 tl hskip, (ih skip hpw_tl).2 j cand h,
          unskipped_cons_mem e0 tl (Finset.mem_insert_of_mem hskip)]
    · have hcons : unskipped skip ((j0, e0) :: tl) = e0 :: unskipped skip tl :=
        unskipped_cons_not_mem e0 tl hskip
      by_cases hP : |e0.start - (curr.start + curr.dur)| < 1/1000 ∧ e0.freq = curr.freq
      · have hpred : tiePred skip curr (j0, e0) = true := by
          simp only [tiePred, Bool.and_eq_true, decide_eq_true_eq]
          exact ⟨hskip, hP.1, hP.2⟩
        have hfind : ((j0, e0) :: tl).find? (tiePred skip curr) = some (j0, e0) :=
          List.find?_cons_of_pos _ hpred
        constructor
        · intro h
          rw [hfind] at h
          cases h
        · intro j cand h
          rw [hfind] at h
          cases h
          rw [hcons, specFindCont, if_pos hP,
            unskipped_cons_mem e0 tl (Finset.mem_insert_self j0 skip),
            unskipped_insert_of_forall_ne tl (fun je hje => (hne je hje).symm)]
      · have hpred : ¬ tiePred skip curr (j0, e0) = true := by
          intro hc
          simp only [tiePred, Bool.and_eq_true, decide_eq_true_eq] at hc
          exact hP ⟨hc.2.1, hc.2.2⟩
        have hfind : ((j0, e0) :: tl).find? (tiePred skip curr) =
            tl.find? (tiePred skip curr) := List.find?_cons_of_neg _ hpred
        constructor
        · intro h
          rw [hfind] at h
          rw [hcons, specFindCont, if_neg hP, (ih skip hpw_tl).1 h]
        · intro j cand h
          rw [hfind] at h
          have hj_tl : (j, cand) ∈ tl := List.mem_of_find?_eq_some h
          have hjne : j0 ≠ j := hne (j, cand) hj_tl
          have hj0ins : j0 ∉ insert j skip := by
            simp [Finset.mem_insert, hjne, hskip]
          rw [hcons, specFindCont, if_neg hP, (ih skip hpw_tl).2 j cand h,
            unskipped_cons_not_mem e0 tl hj0ins]

end Lily

namespace Lily

/-! ## Unfolding equations of the loop functions -/

theorem tieLoop_not_tied (events : List NoteEvent) (i : ℕ) (curr : NoteEvent)
    (skip : Finset ℕ) (h : curr.tied = false) :
    tieLoop events i curr skip = (curr, skip) := by
  rw [tieLoop, if_neg (by simp [h])]

theorem tieLoop_none (events : List NoteEvent) (i : ℕ) (curr : NoteEvent)
    (skip : Finset ℕ) (h : curr.tied = true)
    (hc : tieCand events i skip curr = none) :
    tieLoop events i curr skip = (curr, skip) := by
  rw [tieLoop, if_pos h]
  split
  · rename_i j cand heq
    rw [hc] at heq
    cases heq
  · rfl

theorem tieLoop_some (events : List NoteEvent) (i : ℕ) (curr : NoteEvent)
    (skip : Finset ℕ) (j : ℕ) (cand : NoteEvent) (h : curr.tied = true)
    (hc : tieCand events i skip curr = some (j, cand)) :
    tieLoop events i curr skip =
      tieLoop events i { curr with dur := curr.dur + cand.dur, tied := cand.tied }
        (insert j skip) := by
  rw [tieLoop, if_pos h]
  split
  · rename_i j2 cand2 heq
    rw [hc] at heq
    cases heq
    rfl
  · rename_i heq
    rw [hc] at heq
    cases heq

theorem specMergeTied_not_tied (curr : NoteEvent) (later : List NoteEvent)
    (h : curr.tied = false) : specMergeTied curr later = (curr, later) := by
  rw [specMergeTied, if_neg (by simp [h])]

theorem specMergeTied_none (curr : NoteEvent) (later : List NoteEvent)
    (h : curr.tied = true) (hc : specFindCont curr later = none) :
    specMergeTied curr later = (curr, later) := by
  rw [specMergeTied, if_pos h]
  split
  · rename_i c rest heq
    rw [hc] at heq
    cases heq
  · rfl

theorem specMergeTied_some (curr : NoteEvent) (later : List NoteEvent)
    (c : NoteEvent) (rest : List NoteEvent) (h : curr.tied = true)
    (hc : specFindCont curr later = some (c, rest)) :
    specMergeTied curr later =
      specMergeTied { curr with dur := curr.dur + c.dur, tied := c.tied } rest := by
  rw [specMergeTied, if_pos h]
  split
  · rename_i c2 rest2 heq
    rw [hc] at heq
    cases heq
    rfl
  · rename_i heq
    rw [hc] at heq
    cases heq

theorem mergeLoop_stop (events : List NoteEvent) (i : ℕ) (skip : Finset ℕ)
    (h : ¬ i < events.length) : mergeLoop events i skip = [] := by
  rw [mergeLoop, dif_neg h]

theorem mergeLoop_skip (events : List NoteEvent) (i : ℕ) (skip : Finset ℕ)
    (h : i < events.length) (hs : i ∈ skip) :
    mergeLoop events i skip = mergeLoop events (i + 1) skip := by
  rw [mergeLoop, dif_pos h, if_pos hs]

theorem mergeLoop_rest (events : List NoteEvent) (i : ℕ) (skip : Finset ℕ)
    (h : i < events.length) (hs : i ∉ skip)
    (hf : (events.get ⟨i, h⟩).freq = 0) :
    mergeLoop events i skip = mergeLoop events (i + 1) skip := by
  rw [mergeLoop, dif_pos h, if_neg hs, if_pos hf]

theorem mergeLoop_note (events : List NoteEvent) (i : ℕ) (skip : Finset ℕ)
    (h : i < events.length) (hs : i ∉ skip)
    (hf : ¬ (events.get ⟨i, h⟩).freq = 0) :
    mergeLoop events i skip =
      (tieLoop events i (events.get ⟨i, h⟩) skip).1 ::
        mergeLoop events (i + 1) (tieLoop events i (events.get ⟨i, h⟩) skip).2 := by
  rw [mergeLoop, dif_pos h, if_neg hs, if_neg hf]

theorem specResolve_nil : specResolve [] = [] := by
  rw [specResolve]

theorem specResolve_rest (curr : NoteEvent) (rest : List NoteEvent)
    (hf : curr.freq = 0) : specResolve (curr :: rest) = specResolve rest := by
  rw [specResolve, if_pos hf]

theorem specResolve_note (curr : NoteEvent) (rest : List NoteEvent)
    (hf : ¬ curr.freq = 0) :
    specResolve (curr :: rest) =
      (specMergeTied curr rest).1 :: specResolve (specMergeTied curr rest).2 := by
  rw [specResolve, if_neg hf]

/-! ## The while loop agrees with the spec's removal-based merging -/

/-- The `while curr['tied']` loop over indices and a skip set computes the
same merged note as the spec's removal-based merging over the unskipped
later notes, and its final skip set denotes exactly the spec's remaining
notes. -/
theorem tieLoop_spec (events : List NoteEvent) (i : ℕ) (curr : NoteEvent)
    (skip : Finset ℕ) :
    specMergeTied curr (unskipped skip (events.enum.drop (i + 1))) =
      ((tieLoop events i curr skip).1,
        unskipped (tieLoop events i curr skip).2 (events.enum.drop (i + 1))) := by
  suffices H : ∀ (n : ℕ) (curr : NoteEvent) (skip : Finset ℕ),
      (Finset.range events.length \ skip).card < n →
      specMergeTied curr (unskipped skip (events.enum.drop (i + 1))) =
        ((tieLoop events i curr skip).1,
          unskipped (tieLoop events i curr skip).2 (events.enum.drop (i + 1))) from
    H _ curr skip (Nat.lt_succ_self _)
  intro n
  induction n with
  | zero => intro curr skip h; omega
  | succ n ih =>
    intro curr skip hcard
    by_cases hct : curr.tied = true
    · cases hc : tieCand events i skip curr with
      | none =>
        have hspec := (findCont_spec curr (events.enum.drop (i + 1)) skip
          (enum_drop_pairwise_ne events (i + 1))).1 hc
        rw [specMergeTied_none curr _ hct hspec, tieLoop_none events i curr skip hct hc]
      | some jc =>
        obtain ⟨j, cand⟩ := jc
        have hspec := (findCont_spec curr (events.enum.drop (i + 1)) skip
          (enum_drop_pairwise_ne events (i + 1))).2 j cand hc
        have hf := tieCand_facts events i skip curr j cand hc
        have hdec : (Finset.range events.length \ insert j skip).card <
            (Finset.range events.length \ skip).card := by
          rw [Finset.sdiff_insert]
          exact Finset.card_erase_lt_of_mem
            (Finset.mem_sdiff.2 ⟨Finset.mem_range.2 hf.1, hf.2⟩)
        rw [specMergeTied_some curr _ cand _ hct hspec,
          tieLoop_some events i curr skip j cand hct hc]
        exact ih _ (insert j skip) (by omega)
    · have hct2 : curr.tied = false := by
        cases hb : curr.tied
        · rfl
        · exact absurd hb hct
      rw [specMergeTied_not_tied curr _ hct2, tieLoop_not_tied events i curr skip hct2]

/-- The outer loop of `_process_ties` over indices and a skip set computes
the spec's resolution of the unskipped notes from the current position. -/
theorem mergeLoop_spec (events : List NoteEvent) (i : ℕ) (skip : Finset ℕ) :
    mergeLoop events i skip = specResolve (unskipped skip (events.enum.drop i)) := by
  suffices H : ∀ (n i : ℕ) (skip : Finset ℕ), events.length - i < n →
      mergeLoop events i skip = specResolve (unskipped skip (events.enum.drop i)) from
    H _ i skip (Nat.lt_succ_self _)
  intro n
  induction n with
  | zero => intro i skip h; omega
  | succ n ih =>
    intro i skip hn
    by_cases h : i < events.length
    · rw [enum_drop_decomp events i h]
      by_cases hs : i ∈ skip
      · rw [mergeLoop_skip events i skip h hs, unskipped_cons_mem _ _ hs]
        exact ih (i + 1) skip (by omega)
      · rw [unskipped_cons_not_mem _ _ hs]
        by_cases hfreq : (events.get ⟨i, h⟩).freq = 0
        · rw [mergeLoop_rest events i skip h hs hfreq, specResolve_rest _ _ hfreq]
          exact ih (i + 1) skip (by omega)
        · rw [mergeLoop_note events i skip h hs hfreq, specResolve_note _ _ hfreq,
            tieLoop_spec events i (events.get ⟨i, h⟩) skip]
          rw [ih (i + 1) (tieLoop events i (events.get ⟨i, h⟩) skip).2 (by omega)]
    · rw [mergeLoop_stop events i skip h, enum_drop_past_end events i h,
        unskipped_nil, specResolve_nil]

/-- `_process_ties` computes exactly what the spec's wording describes:
time-sort, then repeatedly merge every tied non-rest note with the first
later unconsumed note of equal frequency whose onset is within 1 ms of its
end, the merged-in notes being removed from the output. -/
theorem process_ties_eq_spec (events : List NoteEvent) :
    process_ties events = spec_process_ties events := by
  cases events with
  | nil =>
    show ([] : List NoteEvent) = spec_process_ties []
    rw [spec_process_ties]
    show ([] : List NoteEvent) = specResolve []
    rw [specResolve_nil]
  | cons x xs =>
    show mergeLoop (sortByStart (x :: xs)) 0 ∅ = specResolve (sortByStart (x :: xs))
    rw [mergeLoop_spec, List.drop_zero]
    congr 1
    exact unskipped_empty_enumFrom (sortByStart (x :: xs)) 0

end Lily

namespace Lily

/-! ## Frequency facts -/

/-- A non-rest frequency is positive (for a positive reference A4). -/
theorem get_freq_pos (cfg : Config) (base : NoteName) (octShift acc : ℤ)
    (ha : 0 < cfg.baseA4) (hb : base ≠ .r) :
    0 < get_freq cfg base octShift acc := by
  rw [get_freq, if_neg hb]
  exact mul_pos ha (Real.rpow_pos_of_pos (by norm_num) _)

/-- A non-rest frequency is nonzero (for a positive reference A4). -/
theorem get_freq_ne_zero (cfg : Config) (base : NoteName) (octShift acc : ℤ)
    (ha : 0 < cfg.baseA4) (hb : base ≠ .r) :
    get_freq cfg base octShift acc ≠ 0 :=
  ne_of_gt (get_freq_pos cfg base octShift acc ha hb)

/-- C2: tie resolution is exactly the spec's procedure — the notes are
time-sorted, every tied non-rest note merges with the first later
unconsumed note of equal frequency whose onset is within 1 ms of its end
(durations added, the successor's tie flag taken over so chains merge
repeatedly, the merged-in note absent from the output), and a tied note
without successor is emitted unchanged; concretely, `c4~ c4` at 100 BPM
parses to exactly one event of duration 1.2 s. -/
theorem c2_tie_resolution :
    (∀ events : List NoteEvent, process_ties events = spec_process_ties events) ∧
    (parse ⟨100, 0, 440⟩
        [.note .c .natural 0 0 (some 4) 0 true,
         .note .c .natural 0 0 (some 4) 0 false]).length = 1 ∧
    (parse ⟨100, 0, 440⟩
        [.note .c .natural 0 0 (some 4) 0 true,
         .note .c .natural 0 0 (some 4) 0 false]).map NoteEvent.dur = [6/5] := by
  have hmain : parse ⟨100, 0, 440⟩
      [.note .c .natural 0 0 (some 4) 0 true,
       .note .c .natural 0 0 (some 4) 0 false] =
      [⟨get_freq ⟨100, 0, 440⟩ .c 0 0, 0, 6/5, false⟩] := by
    have hpt : (parseTokens ⟨100, 0, 440⟩
        [.note .c .natural 0 0 (some 4) 0 true,
         .note .c .natural 0 0 (some 4) 0 false]).raw_events =
        [⟨get_freq ⟨100, 0, 440⟩ .c 0 0, 0, 3/5, true⟩,
         ⟨get_freq ⟨100, 0, 440⟩ .c 0 0, 3/5, 3/5, false⟩] := by
      simp [parseTokens, parseStep, initState, dotFactor, dotFactorGo, accVal]
      norm_num
    rw [parse, hpt, process_ties_eq_spec, spec_process_ties]
    have hsort : sortByStart
        [⟨get_freq ⟨100, 0, 440⟩ .c 0 0, 0, 3/5, true⟩,
         ⟨get_freq ⟨100, 0, 440⟩ .c 0 0, 3/5, 3/5, false⟩] =
        [⟨get_freq ⟨100, 0, 440⟩ .c 0 0, 0, 3/5, true⟩,
         ⟨get_freq ⟨100, 0, 440⟩ .c 0 0, 3/5, 3/5, false⟩] := by
      rw [sortByStart]
      refine List.Sorted.insertionSort_eq ?_
      refine List.Pairwise.cons ?_ (List.pairwise_singleton _ _)
      intro b hb
      simp only [List.mem_singleton] at hb
      subst hb
      norm_num
    rw [hsort]
    have hf : (⟨get_freq ⟨100, 0, 440⟩ .c 0 0, 0, 3/5, true⟩ : NoteEvent).freq ≠ 0 :=
      get_freq_ne_zero ⟨100, 0, 440⟩ .c 0 0 (by norm_num) (by simp)
    rw [specResolve_note _ _ hf]
    have hfind : specFindCont ⟨get_freq ⟨100, 0, 440⟩ .c 0 0, 0, 3/5, true⟩
        [⟨get_freq ⟨100, 0, 440⟩ .c 0 0, 3/5, 3/5, false⟩] =
        some (⟨get_freq ⟨100, 0, 440⟩ .c 0 0, 3/5, 3/5, false⟩, []) := by
      rw [specFindCont, if_pos]
      constructor
      · norm_num
      · rfl
    rw [specMergeTied_some _ _ _ _ rfl hfind, specMergeTied_not_tied _ _ rfl,
      specResolve_nil]
    norm_num
  exact ⟨process_ties_eq_spec, by rw [hmain]; rfl, by rw [hmain]; norm_num⟩

end Lily

namespace Lily

/-! ## No rest ever reaches the renderer (C10) -/

/-- The tie loop only changes duration and tie flag, never the frequency. -/
theorem tieLoop_fst_freq (events : List NoteEvent) (i : ℕ) (curr : NoteEvent)
    (skip : Finset ℕ) : (tieLoop events i curr skip).1.freq = curr.freq := by
  suffices H : ∀ (n : ℕ) (curr : NoteEvent) (skip : Finset ℕ),
      (Finset.range events.length \ skip).card < n →
      (tieLoop events i curr skip).1.freq = curr.freq from
    H _ curr skip (Nat.lt_succ_self _)
  intro n
  induction n with
  | zero => intro curr skip h; omega
  | succ n ih =>
    intro curr skip hcard
    by_cases hct : curr.tied = true
    · cases hc : tieCand events i skip curr with
      | none => rw [tieLoop_none events i curr skip hct hc]
      | some jc =>
        obtain ⟨j, cand⟩ := jc
        have hf := tieCand_facts events i skip curr j cand hc
        have hdec : (Finset.range events.length \ insert j skip).card <
            (Finset.range events.length \ skip).card := by
          rw [Finset.sdiff_insert]
          exact Finset.card_erase_lt_of_mem
            (Finset.mem_sdiff.2 ⟨Finset.mem_range.2 hf.1, hf.2⟩)
        rw [tieLoop_some events i curr skip j cand hct hc]
        exact ih _ (insert j skip) (by omega)
    · have hct2 : curr.tied = false := by
        cases hb : curr.tied
        · rfl
        · exact absurd hb hct
      rw [tieLoop_not_tied events i curr skip hct2]

/-- Every emitted note of the outer loop carries the nonzero frequency of
some input note. -/
theorem mergeLoop_freq (events : List NoteEvent) (i : ℕ) (skip : Finset ℕ) :
    ∀ e ∈ mergeLoop events i skip,
      (∃ e0 ∈ events, e.freq = e0.freq) ∧ e.freq ≠ 0 := by
  suffices H : ∀ (n i : ℕ) (skip : Finset ℕ), events.length - i < n →
      ∀ e ∈ mergeLoop events i skip,
        (∃ e0 ∈ events, e.freq = e0.freq) ∧ e.freq ≠ 0 from
    fun e he => H _ i skip (Nat.lt_succ_self _) e he
  intro n
  induction n with
  | zero => intro i skip h; omega
  | succ n ih =>
    intro i skip hn
    by_cases h : i < events.length
    · by_cases hs : i ∈ skip
      · rw [mergeLoop_skip events i skip h hs]
        exact ih (i + 1) skip (by omega)
      · by_cases hfreq : (events.get ⟨i, h⟩).freq = 0
        · rw [mergeLoop_rest events i skip h hs hfreq]
          exact ih (i + 1) skip (by omega)
        · rw [mergeLoop_note events i skip h hs hfreq]
          intro e he
          rcases List.mem_cons.1 he with he1 | he2
          · subst he1
            rw [tieLoop_fst_freq]
            exact ⟨⟨events.get ⟨i, h⟩, events.get_mem _ _, rfl⟩, hfreq⟩
          · exact ih (i + 1) _ (by omega) e he2
    · rw [mergeLoop_stop events i skip h]
      intro e he
      simp at he

/-- One list-position update preserves frequencies up to membership. -/
theorem modifyAt_freq (f : NoteEvent → NoteEvent)
    (hpres : ∀ x, (f x).freq = x.freq) :
    ∀ (l : List NoteEvent) (k : ℕ) (e : NoteEvent), e ∈ modifyAt l k f →
      ∃ e0 ∈ l, e.freq = e0.freq := by
  intro l
  induction l with
  | nil => intro k e he; simp [modifyAt] at he
  | cons x xs ih =>
    intro k e he
    cases k with
    | zero =>
      rcases List.mem_cons.1 he with he1 | he2
      · exact ⟨x, List.mem_cons_self _ _, by rw [he1, hpres]⟩
      · exact ⟨e, List.mem_cons_of_mem _ he2, rfl⟩
    | succ k =>
      rcases List.mem_cons.1 he with he1 | he2
      · exact ⟨x, List.mem_cons_self _ _, by rw [he1]⟩
      · obtain ⟨e0, he0, hfe⟩ := ih k e he2
        exact ⟨e0, List.mem_cons_of_mem _ he0, hfe⟩

/-- The index folds of the chord-close branch preserve frequencies. -/
theorem foldl_modify_freq (f : NoteEvent → NoteEvent)
    (hpres : ∀ x, (f x).freq = x.freq) :
    ∀ (idxs : List ℕ) (l : List NoteEvent) (e : NoteEvent),
      e ∈ idxs.foldl (fun acc i => modifyAt acc i f) l →
      ∃ e0 ∈ l, e.freq = e0.freq := by
  intro idxs
  induction idxs with
  | nil => intro l e he; exact ⟨e, he, rfl⟩
  | cons k ks ih =>
    intro l e he
    obtain ⟨e1, he1, hf1⟩ := ih (modifyAt l k f) e he
    obtain ⟨e0, he0, hf0⟩ := modifyAt_freq f hpres l k e1 he1
    exact ⟨e0, he0, by rw [hf1, hf0]⟩

/-- Membership in the duration overwrite preserves frequencies. -/
theorem setDurs_freq (l : List NoteEvent) (idxs : List ℕ) (d : ℚ) (e : NoteEvent)
    (he : e ∈ setDurs l idxs d) : ∃ e0 ∈ l, e.freq = e0.freq := by
  rw [setDurs] at he
  exact foldl_modify_freq (fun e => { e with dur := d }) (fun x => rfl) idxs l e he

/-- Membership in the tie overwrite preserves frequencies. -/
theorem setTies_freq (l : List NoteEvent) (idxs : List ℕ) (e : NoteEvent)
    (he : e ∈ setTies l idxs) : ∃ e0 ∈ l, e.freq = e0.freq := by
  rw [setTies] at he
  exact foldl_modify_freq (fun e => { e with tied := true }) (fun x => rfl) idxs l e he

/-- Every raw event of the token loop has a nonnegative frequency. -/
theorem parseTokens_freq_nonneg (cfg : Config) (ha : 0 < cfg.baseA4) :
    ∀ (tokens : List Token) (s : PState),
      (∀ e ∈ s.raw_events, 0 ≤ e.freq) →
      ∀ e ∈ (tokens.foldl (parseStep cfg) s).raw_events, 0 ≤ e.freq := by
  intro tokens
  induction tokens with
  | nil => intro s hs; exact hs
  | cons tok toks ih =>
    intro s hs
    refine ih (parseStep cfg s tok) ?_
    cases tok with
    | bar => exact hs
    | chordOpen => exact hs
    | chordClose durStr dots tie =>
      intro e he
      rw [parseStep] at he
      split at he
      · simp only at he
        have he2 := he
        by_cases htie : tie
        · rw [if_pos htie] at he2
          obtain ⟨e1, he1, hf1⟩ := setTies_freq _ _ _ he2
          obtain ⟨e0, he0, hf0⟩ := setDurs_freq _ _ _ _ he1
          rw [hf1, hf0]
          exact hs e0 he0
        · rw [if_neg htie] at he2
          obtain ⟨e0, he0, hf0⟩ := setDurs_freq _ _ _ _ he2
          rw [hf0]
          exact hs e0 he0
      · simp only at he
        have he2 := he
        by_cases htie : tie
        · rw [if_pos htie] at he2
          obtain ⟨e0, he0, hf0⟩ := setTies_freq _ _ _ he2
          rw [hf0]
          exact hs e0 he0
        · rw [if_neg htie] at he2
          exact hs e he2
    | note base acc octUp octDown durStr dots tie =>
      intro e he
      rw [parseStep] at he
      have hfreq : 0 ≤ get_freq cfg base ((octUp : ℤ) - (octDown : ℤ)) (accVal acc) := by
        by_cases hb : base = .r
        · rw [get_freq, if_pos hb]
        · exact le_of_lt (get_freq_pos cfg base _ _ ha hb)
      split at he <;>
      · simp only at he
        rcases List.mem_append.1 he with he1 | he2
        · exact hs e he1
        · simp only [List.mem_singleton] at he2
          subst he2
          exact hfreq

/-- C10: every event emitted by the textual notation parser has a strictly
positive frequency — a rest token advances the time cursor (outside a
chord, by its duration in seconds) but is dropped during tie resolution
and never reaches the renderer. -/
theorem c10_output_has_no_rests :
    (∀ (cfg : Config) (s : PState) (octUp octDown : ℕ) (durStr : Option ℕ)
        (dots : ℕ) (tie : Bool),
        s.in_chord = false →
        (parseStep cfg s (.note .r .natural octUp octDown durStr dots tie)).current_time =
          s.current_time +
            (4 / ((durStr.getD s.last_duration_val : ℚ))) * dotFactor dots *
              (60 / cfg.bpm)) ∧
    (∀ (cfg : Config) (tokens : List Token), 0 < cfg.baseA4 →
        ∀ e ∈ parse cfg tokens, 0 < e.freq) := by
  constructor
  · intro cfg s octUp octDown durStr dots tie hin
    rw [parseStep]
    simp [hin]
  · intro cfg tokens ha e he
    have hraw : ∀ x ∈ (parseTokens cfg tokens).raw_events, 0 ≤ x.freq :=
      parseTokens_freq_nonneg cfg ha tokens initState (by intro x hx; simp [initState] at hx)
    rw [parse] at he
    rcases hr : (parseTokens cfg tokens).raw_events with _ | ⟨x, xs⟩
    · rw [hr] at he
      simp [process_ties] at he
    · rw [hr] at he hraw
      have he2 : e ∈ mergeLoop (sortByStart (x :: xs)) 0 ∅ := he
      obtain ⟨⟨e0, he0, hfe⟩, hne⟩ := mergeLoop_freq _ 0 ∅ e he2
      have he0' : e0 ∈ x :: xs := by
        have hperm := List.perm_insertionSort
          (fun a b : NoteEvent => a.start ≤ b.start) (x :: xs)
        exact hperm.mem_iff.1 he0
      have h0 : 0 ≤ e0.freq := hraw e0 he0'
      rw [hfe]
      rcases lt_or_eq_of_le h0 with hlt | heq
      · exact hlt
      · exact absurd heq.symm (by rw [hfe] at hne; exact hne)

/-- Witness for C10 at the default configuration. -/
theorem c10_output_has_no_rests_witness :
    initState.in_chord = false ∧
    (parseStep ⟨100, 0, 440⟩ initState (.note .r .natural 0 0 (some 4) 0 false)).current_time =
      initState.current_time +
        (4 / (((some 4 : Option ℕ).getD initState.last_duration_val : ℚ))) * dotFactor 0 *
          (60 / (100 : ℚ)) ∧
    (0 : ℝ) < 440 ∧
    (∀ e ∈ parse ⟨100, 0, 440⟩ [], 0 < e.freq) :=
  ⟨rfl,
    c10_output_has_no_rests.1 ⟨100, 0, 440⟩ initState 0 0 (some 4) 0 false rfl,
    by norm_num,
    c10_output_has_no_rests.2 ⟨100, 0, 440⟩ [] (by norm_num)⟩

end Lily

namespace Lily

/-! ## Harmonic summation (C6) -/

/-- A left fold that adds an indexed term equals the starting value plus
the indexed sum. -/
theorem foldl_add_enumFrom (g : ℕ → ℝ → ℝ) :
    ∀ (l : List ℝ) (n : ℕ) (a : ℝ),
      (l.enumFrom n).foldl (fun acc ia => acc + g ia.1 ia.2) a =
        a + ∑ i ∈ Finset.range l.length, g (n + i) (l.getD i 0) := by
  intro l
  induction l with
  | nil => intro n a; simp [List.enumFrom]
  | cons x xs ih =>
    intro n a
    show (xs.enumFrom (n + 1)).foldl _ (a + g n x) = _
    rw [ih (n + 1) (a + g n x)]
    rw [List.length_cons, Finset.sum_range_succ' (fun i => g (n + i) ((x :: xs).getD i 0))]
    simp only [List.getD_cons_succ, List.getD_cons_zero, Nat.add_zero]
    have hsum : ∑ i ∈ Finset.range xs.length, g (n + (i + 1)) (xs.getD i 0) =
        ∑ i ∈ Finset.range xs.length, g (n + 1 + i) (xs.getD i 0) :=
      Finset.sum_congr rfl
        (fun i _ => by rw [show n + (i + 1) = n + 1 + i from by omega])
    rw [hsum]
    ring

/-- A list sum as an indexed sum. -/
theorem list_sum_getD : ∀ (l : List ℝ),
    l.sum = ∑ i ∈ Finset.range l.length, l.getD i 0 := by
  intro l
  induction l with
  | nil => simp
  | cons x xs ih =>
    rw [List.sum_cons, ih, List.length_cons,
      Finset.sum_range_succ' (fun i => (x :: xs).getD i 0)]
    simp only [List.getD_cons_succ, List.getD_cons_zero]
    ring

/-- C6: for a rendered note of positive fundamental frequency, the 0-based
harmonic `i` of frequency `freq * (i+1)` is summed into the signal exactly
when `freq * (i+1)` is strictly below half the sample rate, and the summed
signal is divided by the sum of all configured overtone amplitudes —
including the amplitudes of harmonics excluded by the Nyquist condition. -/
theorem c6_nyquist_and_normalization (overtones : List ℝ) (freq sr t : ℝ)
    (hf : 0 < freq) :
    generate_wave_sample overtones freq sr t =
      (∑ i ∈ Finset.range overtones.length,
        if freq * ((i : ℝ) + 1) < sr / 2
        then overtones.getD i 0 * Real.sin (2 * Real.pi * (freq * ((i : ℝ) + 1)) * t)
        else 0) /
      (∑ i ∈ Finset.range overtones.length, overtones.getD i 0) := by
  rw [generate_wave_sample, overtoneSum]
  have hfun : (fun (acc : ℝ) (ia : ℕ × ℝ) =>
      if freq * ((ia.1 : ℝ) + 1) < sr / 2
      then acc + ia.2 * Real.sin (2 * Real.pi * (freq * ((ia.1 : ℝ) + 1)) * t)
      else acc) =
      (fun (acc : ℝ) (ia : ℕ × ℝ) => acc +
        (if freq * ((ia.1 : ℝ) + 1) < sr / 2
         then ia.2 * Real.sin (2 * Real.pi * (freq * ((ia.1 : ℝ) + 1)) * t)
         else 0)) := by
    funext acc ia
    split <;> simp
  rw [show overtones.enum = overtones.enumFrom 0 from rfl, hfun,
    foldl_add_enumFrom
      (fun i x => if freq * ((i : ℝ) + 1) < sr / 2
        then x * Real.sin (2 * Real.pi * (freq * ((i : ℝ) + 1)) * t) else 0)
      overtones 0 0,
    list_sum_getD]
  simp

/-- Witness for C6 at a single unit overtone, `freq = 1`, `sr = 4`, `t = 0`. -/
theorem c6_nyquist_and_normalization_witness :
    (0 : ℝ) < 1 ∧
    generate_wave_sample [1] 1 4 0 =
      (∑ i ∈ Finset.range (List.length [(1 : ℝ)]),
        if (1 : ℝ) * ((i : ℝ) + 1) < 4 / 2
        then [(1 : ℝ)].getD i 0 * Real.sin (2 * Real.pi * ((1 : ℝ) * ((i : ℝ) + 1)) * 0)
        else 0) /
      (∑ i ∈ Finset.range (List.length [(1 : ℝ)]), [(1 : ℝ)].getD i 0) :=
  ⟨by norm_num, c6_nyquist_and_normalization [1] 1 4 0 (by norm_num)⟩

end Lily

namespace Lily

/-! ## Chord timing (C5) -/

/-- Updating at an index past a prefix updates inside the suffix. -/
theorem modifyAt_append (f : NoteEvent → NoteEvent) :
    ∀ (l1 l2 : List NoteEvent) (j : ℕ),
      modifyAt (l1 ++ l2) (l1.length + j) f = l1 ++ modifyAt l2 j f := by
  intro l1
  induction l1 with
  | nil => intro l2 j; simp
  | cons x xs ih =>
    intro l2 j
    rw [List.cons_append]
    have hlen : (x :: xs).length + j = (xs.length + j) + 1 := by
      simp only [List.length_cons]
      omega
    rw [hlen]
    show x :: modifyAt (xs ++ l2) (xs.length + j) f = x :: xs ++ modifyAt l2 j f
    rw [ih l2 j]
    rfl

/-- Folding the per-index update over exactly the indices of the suffix
maps the update over the suffix. -/
theorem foldl_modify_suffix (f : NoteEvent → NoteEvent) :
    ∀ (es l1 : List NoteEvent),
      (List.range' l1.length es.length).foldl (fun acc i => modifyAt acc i f)
        (l1 ++ es) = l1 ++ es.map f := by
  intro es
  induction es with
  | nil => intro l1; simp
  | cons e es2 ih =>
    intro l1
    rw [List.length_cons, List.range'_succ]
    show (List.range' (l1.length + 1) es2.length).foldl _
        (modifyAt (l1 ++ e :: es2) l1.length f) = _
    have h0 : modifyAt (l1 ++ e :: es2) l1.length f = (l1 ++ [f e]) ++ es2 := by
      have := modifyAt_append f l1 (e :: es2) 0
      simp only [Nat.add_zero] at this
      rw [this]
      show l1 ++ f e :: es2 = (l1 ++ [f e]) ++ es2
      simp
    have h1 : l1.length + 1 = (l1 ++ [f e]).length := by simp
    rw [h0, h1, ih (l1 ++ [f e])]
    simp

/-- `setDurs` on exactly the appended chord events overwrites their
durations. -/
theorem setDurs_suffix (l1 es : List NoteEvent) (d : ℚ) :
    setDurs (l1 ++ es) (List.range' l1.length es.length) d =
      l1 ++ es.map (fun e => { e with dur := d }) := by
  rw [setDurs]
  exact foldl_modify_suffix (fun e => { e with dur := d }) es l1

/-- `setTies` on exactly the appended chord events sets their tie flags. -/
theorem setTies_suffix (l1 es : List NoteEvent) :
    setTies (l1 ++ es) (List.range' l1.length es.length) =
      l1 ++ es.map (fun e => { e with tied := true }) := by
  rw [setTies]
  exact foldl_modify_suffix (fun e => { e with tied := true }) es l1

/-- Inside a chord, processing note tokens freezes the time cursor and the
bar accumulator, appends events that all start at the frozen chord start,
records exactly the indices of the appended events, and tracks the maxima
of the appended durations and beat lengths; the beat lengths `dqs` relate
to the durations by the seconds-per-beat factor. -/
theorem chord_members_invariant (cfg : Config) :
    ∀ (members : List Token) (s : PState),
      (∀ tok ∈ members, tok.isNoteTok = true) →
      s.in_chord = true →
      ∃ (es : List NoteEvent) (dqs : List ℚ),
        (members.foldl (parseStep cfg) s).raw_events = s.raw_events ++ es ∧
        (members.foldl (parseStep cfg) s).in_chord = true ∧
        (members.foldl (parseStep cfg) s).current_time = s.current_time ∧
        (members.foldl (parseStep cfg) s).chord_start_time = s.chord_start_time ∧
        (members.foldl (parseStep cfg) s).current_bar_duration =
          s.current_bar_duration ∧
        (members.foldl (parseStep cfg) s).bar_counter = s.bar_counter ∧
        (members.foldl (parseStep cfg) s).chord_event_indices =
          s.chord_event_indices ++ List.range' s.raw_events.length es.length ∧
        (members.foldl (parseStep cfg) s).chord_max_duration =
          (es.map NoteEvent.dur).foldl max s.chord_max_duration ∧
        (members.foldl (parseStep cfg) s).chord_max_beat_len =
          dqs.foldl max s.chord_max_beat_len ∧
        es.map NoteEvent.dur = dqs.map (fun q => q * (60 / cfg.bpm)) ∧
        (∀ e ∈ es, e.start = s.chord_start_time) := by
  intro members
  induction members with
  | nil =>
    intro s _ hin
    refine ⟨[], [], by simp, hin, rfl, rfl, rfl, rfl, by simp, rfl, rfl, rfl, ?_⟩
    intro e he
    simp at he
  | cons tok rest ih =>
    intro s hall hin
    have htok := hall tok (List.mem_cons_self _ _)
    cases tok with
    | bar => simp [Token.isNoteTok] at htok
    | chordOpen => simp [Token.isNoteTok] at htok
    | chordClose d0 k0 t0 => simp [Token.isNoteTok] at htok
    | note nb na ou od ds k ti =>
      have hstep : parseStep cfg s (.note nb na ou od ds k ti) =
          { s with
            last_duration_val := ds.getD s.last_duration_val,
            raw_events := s.raw_events ++
              [⟨get_freq cfg nb ((ou : ℤ) - (od : ℤ)) (accVal na), s.chord_start_time,
                4 / ((ds.getD s.last_duration_val : ℚ)) * dotFactor k * (60 / cfg.bpm),
                ti⟩],
            chord_event_indices := s.chord_event_indices ++ [s.raw_events.length],
            chord_max_duration := max s.chord_max_duration
              (4 / ((ds.getD s.last_duration_val : ℚ)) * dotFactor k * (60 / cfg.bpm)),
            chord_max_beat_len := max s.chord_max_beat_len
              (4 / ((ds.getD s.last_duration_val : ℚ)) * dotFactor k) } := by
        rw [parseStep]
        simp [hin]
      have hrest : ∀ tok2 ∈ rest, tok2.isNoteTok = true :=
        fun tok2 h2 => hall tok2 (List.mem_cons_of_mem _ h2)
      obtain ⟨es2, dqs2, h1, h2, h3, h4, h5, h6, h7, h8, h9, h10, h11⟩ :=
        ih (parseStep cfg s (.note nb na ou od ds k ti)) hrest (by rw [hstep]; exact hin)
      simp only [hstep] at h1 h2 h3 h4 h5 h6 h7 h8 h9 h10 h11
      rw [List.foldl_cons, hstep]
      refine ⟨⟨get_freq cfg nb ((ou : ℤ) - (od : ℤ)) (accVal na), s.chord_start_time,
          4 / ((ds.getD s.last_duration_val : ℚ)) * dotFactor k * (60 / cfg.bpm),
          ti⟩ :: es2,
        (4 / ((ds.getD s.last_duration_val : ℚ)) * dotFactor k) :: dqs2,
        ?_, h2, h3, h4, h5, h6, ?_, ?_, ?_, ?_, ?_⟩
      · rw [h1]
        simp
      · rw [h7]
        simp [List.range'_succ]
      · rw [h8]
        simp
      · rw [h9]
        simp
      · simp only [List.map_cons]
        rw [h10]
      · intro e he
        rcases List.mem_cons.1 he with he1 | he2
        · rw [he1]
        · exact h11 e he2

end Lily

namespace Lily

/-- Full chord segment semantics: processing `<` followed by note tokens
and the closing `>` from any state appends events that all share the onset
frozen at the chord opening; an explicit closing duration (digits or dots)
overwrites every member's duration and contributes itself to the bar,
otherwise the time advance is the maximum member duration and the bar
contribution the maximum member beat length. -/
theorem chord_segment_semantics (cfg : Config) (s : PState) (members : List Token)
    (d : Option ℕ) (k : ℕ) (t : Bool) (sMid sEnd : PState)
    (hall : ∀ tok ∈ members, tok.isNoteTok = true)
    (hmid : sMid = (Token.chordOpen :: members).foldl (parseStep cfg) s)
    (hend : sEnd = parseStep cfg sMid (.chordClose d k t)) :
    ∃ (es : List NoteEvent) (dqs : List ℚ),
      sMid.raw_events = s.raw_events ++ es ∧
      (∀ e ∈ es, e.start = s.current_time) ∧
      es.map NoteEvent.dur = dqs.map (fun q => q * (60 / cfg.bpm)) ∧
      ((d ≠ none ∨ k ≠ 0) →
        sEnd.raw_events = s.raw_events ++ es.map (fun e =>
          { e with
            dur := 4 / ((d.getD sMid.last_duration_val : ℚ)) * dotFactor k *
              (60 / cfg.bpm),
            tied := (t || e.tied) }) ∧
        sEnd.current_time = s.current_time +
          4 / ((d.getD sMid.last_duration_val : ℚ)) * dotFactor k * (60 / cfg.bpm) ∧
        sEnd.current_bar_duration = s.current_bar_duration +
          4 / ((d.getD sMid.last_duration_val : ℚ)) * dotFactor k) ∧
      ((d = none ∧ k = 0) →
        sEnd.raw_events = s.raw_events ++
          es.map (fun e => { e with tied := (t || e.tied) }) ∧
        sEnd.current_time = s.current_time + (es.map NoteEvent.dur).foldl max 0 ∧
        sEnd.current_bar_duration = s.current_bar_duration + dqs.foldl max 0) := by
  have hopen : parseStep cfg s .chordOpen =
      { s with
        in_chord := true,
        chord_start_time := s.current_time,
        chord_max_duration := 0,
        chord_max_beat_len := 0,
        chord_event_indices := [] } := rfl
  rw [List.foldl_cons, hopen] at hmid
  obtain ⟨es, dqs, h1, h2, h3, h4, h5, h6, h7, h8, h9, h10, h11⟩ :=
    chord_members_invariant cfg members
      { s with
        in_chord := true,
        chord_start_time := s.current_time,
        chord_max_duration := 0,
        chord_max_beat_len := 0,
        chord_event_indices := [] } hall rfl
  rw [← hmid] at h1 h2 h3 h4 h5 h6 h7 h8 h9
  dsimp only at h1 h3 h4 h5 h6 h7 h8 h9 h10 h11
  refine ⟨es, dqs, h1, ?_, h10, ?_, ?_⟩
  · intro e he
    exact h11 e he
  · intro hex
    have hcond : (d.isSome || decide (k ≠ 0)) = true := by
      rcases hex with hd | hk
      · simp [Option.isSome_iff_ne_none, hd]
      · simp [hk]
    subst hend
    rw [parseStep]
    rw [if_pos hcond]
    refine ⟨?_, ?_, ?_⟩
    · show (if t then setTies (setDurs sMid.raw_events sMid.chord_event_indices _)
          sMid.chord_event_indices
        else setDurs sMid.raw_events sMid.chord_event_indices _) = _
      rw [h1, h7]
      simp only [List.nil_append]
      rw [setDurs_suffix]
      cases t with
      | true =>
        have hlen : List.range' s.raw_events.length es.length =
            List.range' s.raw_events.length
              (es.map (fun e => { e with
                dur := 4 / ((d.getD sMid.last_duration_val : ℚ)) * dotFactor k *
                  (60 / cfg.bpm) })).length := by
          simp
        rw [hlen, setTies_suffix]
        simp [List.map_map, Function.comp]
      | false =>
        simp
    · show sMid.chord_start_time + _ = _
      rw [h4]
    · show sMid.current_bar_duration + _ = _
      rw [h5]
  · rintro ⟨hd, hk⟩
    subst hd
    subst hk
    subst hend
    rw [parseStep]
    rw [if_neg (by simp)]
    refine ⟨?_, ?_, ?_⟩
    · show (if t then setTies sMid.raw_events sMid.chord_event_indices
          else sMid.raw_events) = _
      rw [h1, h7]
      simp only [List.nil_append]
      cases t with
      | true =>
        rw [setTies_suffix]
        simp
      | false =>
        simp
    · show sMid.chord_start_time + sMid.chord_max_duration = _
      rw [h4, h8]
    · show sMid.current_bar_duration + sMid.chord_max_beat_len = _
      rw [h5, h9]

end Lily

namespace Lily

/-- C5: all member notes of a chord share the onset frozen at the
chord-open delimiter; when the closing delimiter carries an explicit
duration or dot suffix, that explicit duration replaces every member
note's duration and is the chord's bar-length contribution, otherwise the
chord's time advance and bar-length contribution are the maxima over its
members; concretely, `<c e g>4` yields three events with identical start
time, each of one quarter-note duration (0.6 s at 100 BPM). -/
theorem c5_chord_onset_and_duration :
    (∀ (cfg : Config) (s : PState) (members : List Token) (d : Option ℕ)
        (k : ℕ) (t : Bool) (sMid sEnd : PState),
      (∀ tok ∈ members, tok.isNoteTok = true) →
      sMid = (Token.chordOpen :: members).foldl (parseStep cfg) s →
      sEnd = parseStep cfg sMid (.chordClose d k t) →
      ∃ (es : List NoteEvent) (dqs : List ℚ),
        sMid.raw_events = s.raw_events ++ es ∧
        (∀ e ∈ es, e.start = s.current_time) ∧
        es.map NoteEvent.dur = dqs.map (fun q => q * (60 / cfg.bpm)) ∧
        ((d ≠ none ∨ k ≠ 0) →
          sEnd.raw_events = s.raw_events ++ es.map (fun e =>
            { e with
              dur := 4 / ((d.getD sMid.last_duration_val : ℚ)) * dotFactor k *
                (60 / cfg.bpm),
              tied := (t || e.tied) }) ∧
          sEnd.current_time = s.current_time +
            4 / ((d.getD sMid.last_duration_val : ℚ)) * dotFactor k * (60 / cfg.bpm) ∧
          sEnd.current_bar_duration = s.current_bar_duration +
            4 / ((d.getD sMid.last_duration_val : ℚ)) * dotFactor k) ∧
        ((d = none ∧ k = 0) →
          sEnd.raw_events = s.raw_events ++
            es.map (fun e => { e with tied := (t || e.tied) }) ∧
          sEnd.current_time = s.current_time + (es.map NoteEvent.dur).foldl max 0 ∧
          sEnd.current_bar_duration = s.current_bar_duration + dqs.foldl max 0)) ∧
    (parse ⟨100, 0, 440⟩
        [.chordOpen,
         .note .c .natural 0 0 none 0 false,
         .note .e .natural 0 0 none 0 false,
         .note .g .natural 0 0 none 0 false,
         .chordClose (some 4) 0 false]).map (fun e => (e.start, e.dur)) =
      [((0 : ℚ), (3/5 : ℚ)), (0, 3/5), (0, 3/5)] := by
  constructor
  · intro cfg s members d k t sMid sEnd hall hmid hend
    exact chord_segment_semantics cfg s members d k t sMid sEnd hall hmid hend
  · have hpt : (parseTokens ⟨100, 0, 440⟩
        [.chordOpen,
         .note .c .natural 0 0 none 0 false,
         .note .e .natural 0 0 none 0 false,
         .note .g .natural 0 0 none 0 false,
         .chordClose (some 4) 0 false]).raw_events =
        [⟨get_freq ⟨100, 0, 440⟩ .c 0 0, 0, 3/5, false⟩,
         ⟨get_freq ⟨100, 0, 440⟩ .e 0 0, 0, 3/5, false⟩,
         ⟨get_freq ⟨100, 0, 440⟩ .g 0 0, 0, 3/5, false⟩] := by
      norm_num [parseTokens, parseStep, initState, dotFactor, dotFactorGo, accVal,
        setDurs, setTies, modifyAt]
    have hmain : parse ⟨100, 0, 440⟩
        [.chordOpen,
         .note .c .natural 0 0 none 0 false,
         .note .e .natural 0 0 none 0 false,
         .note .g .natural 0 0 none 0 false,
         .chordClose (some 4) 0 false] =
        [⟨get_freq ⟨100, 0, 440⟩ .c 0 0, 0, 3/5, false⟩,
         ⟨get_freq ⟨100, 0, 440⟩ .e 0 0, 0, 3/5, false⟩,
         ⟨get_freq ⟨100, 0, 440⟩ .g 0 0, 0, 3/5, false⟩] := by
      rw [parse, hpt, process_ties_eq_spec, spec_process_ties]
      have hsort : sortByStart
          [⟨get_freq ⟨100, 0, 440⟩ .c 0 0, 0, 3/5, false⟩,
           ⟨get_freq ⟨100, 0, 440⟩ .e 0 0, 0, 3/5, false⟩,
           ⟨get_freq ⟨100, 0, 440⟩ .g 0 0, 0, 3/5, false⟩] =
          [⟨get_freq ⟨100, 0, 440⟩ .c 0 0, 0, 3/5, false⟩,
           ⟨get_freq ⟨100, 0, 440⟩ .e 0 0, 0, 3/5, false⟩,
           ⟨get_freq ⟨100, 0, 440⟩ .g 0 0, 0, 3/5, false⟩] := by
        rw [sortByStart]
        refine List.Sorted.insertionSort_eq ?_
        refine List.Pairwise.cons ?_ (List.Pairwise.cons ?_ (List.pairwise_singleton _ _))
        · intro e2 he2
          simp at he2
          rcases he2 with h | h <;> (subst h; norm_num)
        · intro e2 he2
          simp at he2
          subst he2
          norm_num
      rw [hsort]
      have hfc : (⟨get_freq ⟨100, 0, 440⟩ .c 0 0, 0, 3/5, false⟩ : NoteEvent).freq ≠ 0 :=
        get_freq_ne_zero ⟨100, 0, 440⟩ .c 0 0 (by norm_num) (by simp)
      have hfe : (⟨get_freq ⟨100, 0, 440⟩ .e 0 0, 0, 3/5, false⟩ : NoteEvent).freq ≠ 0 :=
        get_freq_ne_zero ⟨100, 0, 440⟩ .e 0 0 (by norm_num) (by simp)
      have hfg : (⟨get_freq ⟨100, 0, 440⟩ .g 0 0, 0, 3/5, false⟩ : NoteEvent).freq ≠ 0 :=
        get_freq_ne_zero ⟨100, 0, 440⟩ .g 0 0 (by norm_num) (by simp)
      rw [specResolve_note _ _ hfc, specMergeTied_not_tied _ _ rfl,
        specResolve_note _ _ hfe, specMergeTied_not_tied _ _ rfl,
        specResolve_note _ _ hfg, specMergeTied_not_tied _ _ rfl,
        specResolve_nil]
    rw [hmain]
    norm_num

/-- Witness for C5 at the empty chord with explicit closing duration 4. -/
theorem c5_chord_onset_and_duration_witness :
    (∀ tok ∈ ([] : List Token), tok.isNoteTok = true) ∧
    (∃ (es : List NoteEvent) (dqs : List ℚ),
      ((Token.chordOpen :: ([] : List Token)).foldl (parseStep ⟨100, 0, 440⟩)
          initState).raw_events = initState.raw_events ++ es ∧
      (∀ e ∈ es, e.start = initState.current_time) ∧
      es.map NoteEvent.dur = dqs.map (fun q => q * (60 / (⟨100, 0, 440⟩ : Config).bpm)) ∧
      ((some 4 ≠ none ∨ (0 : ℕ) ≠ 0) →
        (parseStep ⟨100, 0, 440⟩
            ((Token.chordOpen :: ([] : List Token)).foldl (parseStep ⟨100, 0, 440⟩)
              initState) (.chordClose (some 4) 0 false)).raw_events =
          initState.raw_events ++ es.map (fun e =>
            { e with
              dur := 4 / (((some 4).getD ((Token.chordOpen :: ([] : List Token)).foldl
                  (parseStep ⟨100, 0, 440⟩) initState).last_duration_val : ℚ)) *
                dotFactor 0 * (60 / (⟨100, 0, 440⟩ : Config).bpm),
              tied := (false || e.tied) }) ∧
        (parseStep ⟨100, 0, 440⟩
            ((Token.chordOpen :: ([] : List Token)).foldl (parseStep ⟨100, 0, 440⟩)
              initState) (.chordClose (some 4) 0 false)).current_time =
          initState.current_time +
            4 / (((some 4).getD ((Token.chordOpen :: ([] : List Token)).foldl
                (parseStep ⟨100, 0, 440⟩) initState).last_duration_val : ℚ)) *
              dotFactor 0 * (60 / (⟨100, 0, 440⟩ : Config).bpm) ∧
        (parseStep ⟨100, 0, 440⟩
            ((Token.chordOpen :: ([] : List Token)).foldl (parseStep ⟨100, 0, 440⟩)
              initState) (.chordClose (some 4) 0 false)).current_bar_duration =
          initState.current_bar_duration +
            4 / (((some 4).getD ((Token.chordOpen :: ([] : List Token)).foldl
                (parseStep ⟨100, 0, 440⟩) initState).last_duration_val : ℚ)) *
              dotFactor 0) ∧
      ((some 4 = none ∧ (0 : ℕ) = 0) →
        (parseStep ⟨100, 0, 440⟩
            ((Token.chordOpen :: ([] : List Token)).foldl (parseStep ⟨100, 0, 440⟩)
              initState) (.chordClose (some 4) 0 false)).raw_events =
          initState.raw_events ++ es.map (fun e => { e with tied := (false || e.tied) }) ∧
        (parseStep ⟨100, 0, 440⟩
            ((Token.chordOpen :: ([] : List Token)).foldl (parseStep ⟨100, 0, 440⟩)
              initState) (.chordClose (some 4) 0 false)).current_time =
          initState.current_time + (es.map NoteEvent.dur).foldl max 0 ∧
        (parseStep ⟨100, 0, 440⟩
            ((Token.chordOpen :: ([] : List Token)).foldl (parseStep ⟨100, 0, 440⟩)
              initState) (.chordClose (some 4) 0 false)).current_bar_duration =
          initState.current_bar_duration + dqs.foldl max 0)) :=
  ⟨fun tok h => absurd h (List.not_mem_nil tok),
    c5_chord_onset_and_duration.1 ⟨100, 0, 440⟩ initState [] (some 4) 0 false _ _
      (fun tok h => absurd h (List.not_mem_nil tok)) rfl rfl⟩

end Lily
